import Mathlib

set_option linter.unusedSectionVars false
set_option linter.unusedVariables false

/-!
Verification of the metadata-index / document-tree core of `resync.py`.

The Python program keeps four global dictionaries
(`metadata_by_uuid`, `metadata_by_name`, `metadata_by_parent`,
`metadata_by_name_and_parent`) and a set of operations over them
(`retrieve_metadata`, `remove_uuid`, `curb_tree`, the push-policy
dispatch in `construct_node_tree_from_disk`, the cleanup passes).
Python `dict`s preserve insertion order; we model them as association
lists with Python's update semantics (overwrite in place, append new
keys at the end).  Machine integers are unbounded in Python, so `Int`
is exact.  Fallible operations (KeyError, raised exceptions) are
modelled with `Option` / `Except`.
-/

/-- A metadata record.  The source writes further fields
(`pinned`, `synced`, `version`, `metadatamodified`, `modified`,
`lastOpened`, `lastOpenedPage`); none of them is ever read by the
modelled operations, so they are omitted here.  `lastModified` is kept
as an integer: the source stores it as a decimal string and converts it
with `int(...)` at its only read site (`cleanup_duplicates`). -/
structure Meta where
  visibleName : String
  parent : String
  type : String
  lastModified : Int
  deleted : Bool
deriving DecidableEq, Repr

/-- Python `d[k] = v`: overwrite in place if the key is present,
otherwise append at the end (Python dicts preserve insertion order). -/
def dictInsert [BEq κ] (d : List (κ × α)) (k : κ) (v : α) : List (κ × α) :=
  if (d.lookup k).isSome then
    d.map (fun p => if p.1 == k then (k, v) else p)
  else
    d ++ [(k, v)]

/-- Python `del d[k]` (on a key known to be present at call sites). -/
def dictErase [BEq κ] (d : List (κ × α)) (k : κ) : List (κ × α) :=
  d.filter (fun p => !(p.1 == k))

/-- The four global index dictionaries of the source. -/
structure Index where
  metadata_by_uuid : List (String × Meta)
  metadata_by_name : List (String × List (String × Meta))
  metadata_by_parent : List (String × List (String × Meta))
  metadata_by_name_and_parent : List ((String × String) × (String × Meta))
deriving DecidableEq, Repr

def emptyIndex : Index := ⟨[], [], [], []⟩

/-- Python runtime errors surfaced by the modelled code paths. -/
inductive PyErr where
  | keyError (key : String)
  | recursionError
deriving DecidableEq, Repr

/-- `fullpath(metadata)`: concatenates `visibleName` through the
`parent` ancestry.  Looking up a missing ancestor in
`metadata_by_uuid` is a `KeyError`; a parent cycle exhausts Python's
recursion limit, modelled by the fuel argument (callers pass
`length + 1` fuel, enough for every acyclic chain). -/
def fullpath (by_uuid : List (String × Meta)) : Nat → Meta → Except PyErr String
  | 0, _ => .error .recursionError
  | fuel+1, m =>
    if m.parent = "" then .ok ("/" ++ m.visibleName)
    else
      match by_uuid.lookup m.parent with
      | none => .error (.keyError m.parent)
      | some pm =>
        match fullpath by_uuid fuel pm with
        | .ok s => .ok (s ++ "/" ++ m.visibleName)
        | .error e => .error e

/-- Errors that abort `retrieve_metadata`: the `FileCollision`
exception raised on a duplicate (visibleName, parent) key, or a
Python error escaping from the `fullpath` call embedded in the
collision message. -/
inductive LoadErr where
  | fileCollision (path : String)
  | pyError (e : PyErr)
deriving DecidableEq, Repr

/-- One iteration of the `retrieve_metadata` loop body: skip
soft-deleted / trashed records, update `metadata_by_uuid`,
`metadata_by_name`, `metadata_by_parent`, then check
`metadata_by_name_and_parent` for a collision (raising `FileCollision`
whose message evaluates `fullpath` against the already-updated
`metadata_by_uuid`) and finally insert the key. -/
def insertRecord (idx : Index) (u : String) (m : Meta) : Except LoadErr Index :=
  if m.deleted || m.parent == "trash" then .ok idx
  else
    let byu := dictInsert idx.metadata_by_uuid u m
    let inner_n := (idx.metadata_by_name.lookup m.visibleName).getD []
    let byn := dictInsert idx.metadata_by_name m.visibleName (dictInsert inner_n u m)
    let inner_p := (idx.metadata_by_parent.lookup m.parent).getD []
    let byp := dictInsert idx.metadata_by_parent m.parent (dictInsert inner_p u m)
    if (idx.metadata_by_name_and_parent.lookup (m.visibleName, m.parent)).isSome then
      match fullpath byu (byu.length + 1) m with
      | .ok p => .error (.fileCollision p)
      | .error e => .error (.pyError e)
    else
      .ok ⟨byu, byn, byp,
           dictInsert idx.metadata_by_name_and_parent (m.visibleName, m.parent) (u, m)⟩

def loadAux : Index → List (String × Meta) → Except LoadErr Index
  | idx, [] => .ok idx
  | idx, (u, m) :: rest =>
    match insertRecord idx u m with
    | .ok idx' => loadAux idx' rest
    | .error e => .error e

/-- `retrieve_metadata()`: fold the snapshot of (uuid, record) pairs
into the four indices, starting from empty globals. -/
def retrieve_metadata (records : List (String × Meta)) : Except LoadErr Index :=
  loadAux emptyIndex records

def get_metadata_by_uuid (idx : Index) (u : String) : Option Meta :=
  idx.metadata_by_uuid.lookup u

def get_metadata_by_name (idx : Index) (name : String) :
    Option (List (String × Meta)) :=
  idx.metadata_by_name.lookup name

def get_metadata_by_parent (idx : Index) (parent : String) :
    List (String × Meta) :=
  (idx.metadata_by_parent.lookup parent).getD []

def get_metadata_by_name_and_parent (idx : Index) (name parent : String) :
    Option (String × Meta) :=
  idx.metadata_by_name_and_parent.lookup (name, parent)

/-- `remove_uuid(u)`: delete the by-uuid entry and, when the record's
parent is non-empty, delete `u` from the parent's sibling dict,
dropping the by-parent entry if it became empty.  A missing key at any
of the three Python subscript sites is a `KeyError`, modelled as
`none`. -/
def remove_uuid (idx : Index) (u : String) : Option Index :=
  match idx.metadata_by_uuid.lookup u with
  | none => none
  | some m =>
    let byu := dictErase idx.metadata_by_uuid u
    if m.parent = "" then
      some { idx with metadata_by_uuid := byu }
    else
      match idx.metadata_by_parent.lookup m.parent with
      | none => none
      | some siblings =>
        if (siblings.lookup u).isSome then
          let siblings' := dictErase siblings u
          let byp :=
            if siblings'.isEmpty then
              dictErase idx.metadata_by_parent m.parent
            else
              dictInsert idx.metadata_by_parent m.parent siblings'
          some { idx with metadata_by_uuid := byu, metadata_by_parent := byp }
        else
          none

section DictLemmas

variable {κ : Type} {α : Type} [BEq κ] [LawfulBEq κ]

theorem lookup_append (d e : List (κ × α)) (k : κ) :
    (d ++ e).lookup k = match d.lookup k with
      | some v => some v
      | none => e.lookup k := by
  induction d with
  | nil => simp
  | cons p t ih =>
    obtain ⟨a, b⟩ := p
    cases hab : (k == a) <;> simp [List.lookup_cons, hab, ih]

theorem lookup_map_replace (d : List (κ × α)) (k k' : κ) (v : α) :
    ((d.map (fun p => if p.1 == k then (k, v) else p)).lookup k')
      = if k' == k then (d.lookup k).map (fun _ => v) else d.lookup k' := by
  induction d with
  | nil => cases h : (k' == k) <;> simp [h]
  | cons p t ih =>
    obtain ⟨a, b⟩ := p
    by_cases hak : a = k
    · subst hak
      by_cases hk : k' = a
      · subst hk; simp [List.lookup_cons]
      · simp [List.lookup_cons, beq_false_of_ne hk, ih]
    · by_cases hk : k' = a
      · subst hk
        simp [List.lookup_cons, beq_false_of_ne hak, beq_false_of_ne (Ne.symm hak)]
      · simp [List.lookup_cons, beq_false_of_ne hak, beq_false_of_ne hk,
          beq_false_of_ne (Ne.symm hak), ih]

theorem lookup_dictInsert (d : List (κ × α)) (k k' : κ) (v : α) :
    (dictInsert d k v).lookup k'
      = if k' == k then some v else d.lookup k' := by
  unfold dictInsert
  by_cases h : (d.lookup k).isSome
  · simp only [h, if_true, lookup_map_replace]
    by_cases hk : k' = k
    · subst hk
      obtain ⟨w, hw⟩ := Option.isSome_iff_exists.mp h
      simp [hw]
    · simp [beq_false_of_ne hk]
  · simp only [h, Bool.false_eq_true, if_false, lookup_append]
    by_cases hk : k' = k
    · subst hk
      rw [Bool.not_eq_true, Option.not_isSome, Option.isNone_iff_eq_none] at h
      simp [h, List.lookup_cons]
    · cases hd : d.lookup k' with
      | some w => simp [hd, beq_false_of_ne hk]
      | none => simp [hd, List.lookup_cons, beq_false_of_ne hk]

theorem mem_dictInsert {d : List (κ × α)} {k : κ} {v : α} {e : κ × α}
    (h : e ∈ dictInsert d k v) : e = (k, v) ∨ e ∈ d := by
  unfold dictInsert at h
  by_cases hs : (d.lookup k).isSome
  · simp only [hs, if_true, List.mem_map] at h
    obtain ⟨p, hp, hpe⟩ := h
    by_cases hpk : (p.1 == k) = true
    · simp only [hpk, if_true] at hpe; exact Or.inl hpe.symm
    · simp only [hpk, if_false] at hpe
      exact Or.inr (hpe ▸ hp)
  · simp only [hs, Bool.false_eq_true, if_false, List.mem_append,
      List.mem_singleton] at h
    rcases h with h1 | h2
    · exact Or.inr h1
    · exact Or.inl h2

theorem lookup_dictErase (d : List (κ × α)) (k k' : κ) :
    (dictErase d k).lookup k' = if k' == k then none else d.lookup k' := by
  induction d with
  | nil => cases h : (k' == k) <;> simp [dictErase, h]
  | cons p t ih =>
    obtain ⟨a, b⟩ := p
    by_cases hak : a = k
    · subst hak
      simp only [dictErase, List.filter_cons, beq_self_eq_true, Bool.not_true,
        Bool.false_eq_true, if_false]
      by_cases hk : k' = a
      · subst hk; simpa [dictErase] using ih
      · simp only [dictErase] at ih
        simp [ih, List.lookup_cons, beq_false_of_ne hk]
    · simp only [dictErase, List.filter_cons, beq_false_of_ne hak,
        Bool.not_false, if_true]
      by_cases hk : k' = a
      · subst hk
        simp [List.lookup_cons, beq_false_of_ne hak]
      · simp only [dictErase] at ih
        simp [List.lookup_cons, beq_false_of_ne hk, ih]

theorem lookup_eq_some_mem {d : List (κ × α)} {k : κ} {v : α}
    (h : d.lookup k = some v) : (k, v) ∈ d := by
  induction d with
  | nil => simp at h
  | cons p t ih =>
    obtain ⟨a, b⟩ := p
    by_cases hk : k = a
    · subst hk
      simp only [List.lookup_cons, beq_self_eq_true] at h
      cases h
      exact List.mem_cons_self _ _
    · simp only [List.lookup_cons, beq_false_of_ne hk] at h
      exact List.mem_cons_of_mem _ (ih h)

end DictLemmas

/-- A record survives the soft-delete / trash filter of
`retrieve_metadata` (the negation of the `continue` condition). -/
def live (m : Meta) : Prop := (m.deleted || m.parent == "trash") = false

instance (m : Meta) : Decidable (live m) := by unfold live; infer_instance

/-- The `metadata_by_name_and_parent` key of a record. -/
def keyOf (m : Meta) : String × String := (m.visibleName, m.parent)

/-- `True` when the load aborted with the `FileCollision` exception
(rather than succeeding or aborting with an escaping Python error). -/
def isFileCollisionError : Except LoadErr Index → Bool
  | .error (.fileCollision _) => true
  | _ => false

theorem insertRecord_dead {idx : Index} {u : String} {m : Meta}
    (h : (m.deleted || m.parent == "trash") = true) :
    insertRecord idx u m = .ok idx := by
  unfold insertRecord; simp [h]

theorem insertRecord_collision {idx : Index} {u : String} {m : Meta}
    (hl : live m)
    (hc : (idx.metadata_by_name_and_parent.lookup (m.visibleName, m.parent)).isSome) :
    insertRecord idx u m =
      match fullpath (dictInsert idx.metadata_by_uuid u m)
          ((dictInsert idx.metadata_by_uuid u m).length + 1) m with
      | .ok p => .error (.fileCollision p)
      | .error e => .error (.pyError e) := by
  unfold live at hl
  unfold insertRecord
  simp [hl, hc]

theorem insertRecord_collision_error {idx : Index} {u : String} {m : Meta}
    (hl : live m)
    (hc : (idx.metadata_by_name_and_parent.lookup (m.visibleName, m.parent)).isSome) :
    ∃ e, insertRecord idx u m = .error e := by
  rw [insertRecord_collision hl hc]
  cases fullpath (dictInsert idx.metadata_by_uuid u m)
      ((dictInsert idx.metadata_by_uuid u m).length + 1) m with
  | ok p => exact ⟨.fileCollision p, rfl⟩
  | error e => exact ⟨.pyError e, rfl⟩

theorem insertRecord_ok_bynap_mono {idx idx' : Index} {u : String} {m : Meta}
    {k : String × String}
    (h : insertRecord idx u m = .ok idx')
    (hk : (idx.metadata_by_name_and_parent.lookup k).isSome) :
    (idx'.metadata_by_name_and_parent.lookup k).isSome := by
  unfold insertRecord at h
  by_cases hd : (m.deleted || m.parent == "trash") = true
  · simp only [hd, if_true] at h
    cases h; exact hk
  · simp only [Bool.not_eq_true] at hd
    simp only [hd, Bool.false_eq_true, if_false] at h
    by_cases hc :
        (idx.metadata_by_name_and_parent.lookup (m.visibleName, m.parent)).isSome
    · simp only [hc, if_true] at h
      cases hfp : fullpath (dictInsert idx.metadata_by_uuid u m)
          ((dictInsert idx.metadata_by_uuid u m).length + 1) m <;>
        simp [hfp] at h
    · simp only [hc, Bool.false_eq_true, if_false] at h
      cases h
      simp only [lookup_dictInsert]
      by_cases hkk : k = (m.visibleName, m.parent)
      · simp [hkk]
      · simpa [beq_false_of_ne hkk] using hk

theorem insertRecord_ok_self {idx idx' : Index} {u : String} {m : Meta}
    (h : insertRecord idx u m = .ok idx') (hl : live m) :
    (idx'.metadata_by_name_and_parent.lookup (m.visibleName, m.parent)).isSome := by
  unfold live at hl
  unfold insertRecord at h
  simp only [hl, Bool.false_eq_true, if_false] at h
  by_cases hc :
      (idx.metadata_by_name_and_parent.lookup (m.visibleName, m.parent)).isSome
  · simp only [hc, if_true] at h
    cases hfp : fullpath (dictInsert idx.metadata_by_uuid u m)
        ((dictInsert idx.metadata_by_uuid u m).length + 1) m <;>
      simp [hfp] at h
  · simp only [hc, Bool.false_eq_true, if_false] at h
    cases h
    simp [lookup_dictInsert]

theorem loadAux_mid_collision :
    ∀ (l2 : List (String × Meta)) (idx : Index) (ub : String) (mb : Meta)
      (l3 : List (String × Meta)),
      live mb →
      (idx.metadata_by_name_and_parent.lookup (mb.visibleName, mb.parent)).isSome →
      ∃ e, loadAux idx (l2 ++ (ub, mb) :: l3) = .error e := by
  intro l2
  induction l2 with
  | nil =>
    intro idx ub mb l3 hl hc
    obtain ⟨e, he⟩ := @insertRecord_collision_error idx ub mb hl hc
    exact ⟨e, by simp [loadAux, he]⟩
  | cons p t ih =>
    intro idx ub mb l3 hl hc
    obtain ⟨u', m'⟩ := p
    cases hi : insertRecord idx u' m' with
    | error e => exact ⟨e, by simp [loadAux, hi]⟩
    | ok idx1 =>
      obtain ⟨e, he⟩ := ih idx1 ub mb l3 hl (insertRecord_ok_bynap_mono hi hc)
      exact ⟨e, by simp [loadAux, hi, he]⟩

theorem loadAux_dup_fatal :
    ∀ (l1 : List (String × Meta)) (idx : Index) (ua : String) (ma : Meta)
      (l2 : List (String × Meta)) (ub : String) (mb : Meta)
      (l3 : List (String × Meta)),
      live ma → live mb → keyOf ma = keyOf mb →
      ∃ e, loadAux idx (l1 ++ (ua, ma) :: l2 ++ (ub, mb) :: l3) = .error e := by
  intro l1
  induction l1 with
  | nil =>
    intro idx ua ma l2 ub mb l3 hla hlb hkey
    cases hi : insertRecord idx ua ma with
    | error e => exact ⟨e, by simp [loadAux, hi]⟩
    | ok idx1 =>
      have hself := insertRecord_ok_self hi hla
      have hkey' : (ma.visibleName, ma.parent) = (mb.visibleName, mb.parent) := hkey
      rw [hkey'] at hself
      obtain ⟨e, he⟩ := loadAux_mid_collision l2 idx1 ub mb l3 hlb hself
      exact ⟨e, by simp [loadAux, hi, he]⟩
  | cons p t ih =>
    intro idx ua ma l2 ub mb l3 hla hlb hkey
    obtain ⟨u', m'⟩ := p
    cases hi : insertRecord idx u' m' with
    | error e => exact ⟨e, by simp [loadAux, hi]⟩
    | ok idx1 =>
      obtain ⟨e, he⟩ := ih idx1 ua ma l2 ub mb l3 hla hlb hkey
      exact ⟨e, by simpa [loadAux, hi] using he⟩

def exMeta : Meta := ⟨"A", "p", "DocumentType", 0, false⟩

/-- The record (keyed by `u`) occurs in none of the four index
structures: not a `metadata_by_uuid` key, not a key of any inner dict
of `metadata_by_name` or `metadata_by_parent`, and not the uuid
component of any `metadata_by_name_and_parent` value. -/
def recordAbsent (idx : Index) (u : String) : Prop :=
  idx.metadata_by_uuid.lookup u = none
  ∧ (∀ e ∈ idx.metadata_by_name, e.2.lookup u = none)
  ∧ (∀ e ∈ idx.metadata_by_parent, e.2.lookup u = none)
  ∧ (∀ e ∈ idx.metadata_by_name_and_parent, e.2.1 ≠ u)

instance (idx : Index) (u : String) : Decidable (recordAbsent idx u) := by
  unfold recordAbsent; infer_instance

theorem recordAbsent_empty (u : String) : recordAbsent emptyIndex u := by
  refine ⟨rfl, ?_, ?_, ?_⟩ <;> intro e he <;> simp [emptyIndex] at he

theorem insertRecord_preserves_absent {idx idx' : Index} {u' : String} {m' : Meta}
    {u : String}
    (h : insertRecord idx u' m' = .ok idx') (hne : u' ≠ u)
    (ha : recordAbsent idx u) : recordAbsent idx' u := by
  obtain ⟨h1, h2, h3, h4⟩ := ha
  unfold insertRecord at h
  by_cases hd : (m'.deleted || m'.parent == "trash") = true
  · simp only [hd, if_true] at h
    cases h; exact ⟨h1, h2, h3, h4⟩
  · simp only [Bool.not_eq_true] at hd
    simp only [hd, Bool.false_eq_true, if_false] at h
    by_cases hc :
        (idx.metadata_by_name_and_parent.lookup (m'.visibleName, m'.parent)).isSome
    · simp only [hc, if_true] at h
      cases hfp : fullpath (dictInsert idx.metadata_by_uuid u' m')
          ((dictInsert idx.metadata_by_uuid u' m').length + 1) m' <;>
        simp [hfp] at h
    · simp only [hc, Bool.false_eq_true, if_false] at h
      cases h
      refine ⟨?_, ?_, ?_, ?_⟩
      · simpa [lookup_dictInsert, beq_false_of_ne hne,
          beq_false_of_ne (Ne.symm hne)] using h1
      · intro e he
        rcases mem_dictInsert he with he' | he'
        · subst he'
          simp only [lookup_dictInsert, beq_false_of_ne (Ne.symm hne),
            Bool.false_eq_true, if_false]
          cases hn : idx.metadata_by_name.lookup m'.visibleName with
          | none => simp [hn]
          | some d => simpa [hn] using h2 _ (lookup_eq_some_mem hn)
        · exact h2 _ he'
      · intro e he
        rcases mem_dictInsert he with he' | he'
        · subst he'
          simp only [lookup_dictInsert, beq_false_of_ne (Ne.symm hne),
            Bool.false_eq_true, if_false]
          cases hn : idx.metadata_by_parent.lookup m'.parent with
          | none => simp [hn]
          | some d => simpa [hn] using h3 _ (lookup_eq_some_mem hn)
        · exact h3 _ he'
      · intro e he
        rcases mem_dictInsert he with he' | he'
        · subst he'; exact hne
        · exact h4 _ he'

theorem loadAux_preserves_absent :
    ∀ (rs : List (String × Meta)) (idx idx' : Index) (u : String),
      recordAbsent idx u →
      (∀ p ∈ rs, p.1 = u → (p.2.deleted || p.2.parent == "trash") = true) →
      loadAux idx rs = .ok idx' → recordAbsent idx' u := by
  intro rs
  induction rs with
  | nil =>
    intro idx idx' u ha _ h
    cases h; exact ha
  | cons p t ih =>
    intro idx idx' u ha hdead h
    obtain ⟨u', m'⟩ := p
    cases hi : insertRecord idx u' m' with
    | error e => simp [loadAux, hi] at h
    | ok idx1 =>
      simp only [loadAux, hi] at h
      by_cases hu : u' = u
      · subst hu
        have hd : (m'.deleted || m'.parent == "trash") = true :=
          hdead (u', m') (List.mem_cons_self _ _) rfl
        rw [insertRecord_dead hd] at hi
        cases hi
        exact ih _ _ _ ha (fun q hq => hdead q (List.mem_cons_of_mem _ hq)) h
      · exact ih _ _ _ (insertRecord_preserves_absent hi hu ha)
          (fun q hq => hdead q (List.mem_cons_of_mem _ hq)) h

theorem nodup_fst_unique {rs : List (String × Meta)} {u : String} {m : Meta}
    {p : String × Meta}
    (hnd : (rs.map Prod.fst).Nodup) (hm : (u, m) ∈ rs) (hp : p ∈ rs)
    (hpu : p.1 = u) : p = (u, m) := by
  induction rs with
  | nil => simp at hm
  | cons a t ih =>
    simp only [List.map_cons, List.nodup_cons] at hnd
    rcases List.mem_cons.mp hm with hm' | hm' <;>
      rcases List.mem_cons.mp hp with hp' | hp'
    · subst hp'; rw [← hm']
    · exfalso
      apply hnd.1
      have hmem : p.1 ∈ t.map Prod.fst := List.mem_map_of_mem Prod.fst hp'
      rw [hpu] at hmem
      rw [← hm']
      exact hmem
    · exfalso
      apply hnd.1
      subst hp'
      have hmem : (u, m).1 ∈ t.map Prod.fst := List.mem_map_of_mem Prod.fst hm'
      rw [hpu]
      exact hmem
    · exact ih hnd.2 hm' hp'

/-- C1 counterexample.  Two non-deleted records share the key
("A", "p") but the record of the common parent "p" is absent from the
loaded prefix when the second duplicate is inserted.  The collision
message calls `fullpath`, whose uuid lookup of "p" raises `KeyError`,
so the load aborts with `KeyError`, not with `FileCollision`; loading
the parent first yields `FileCollision`.  Hence the raised error is
not `FileCollision` regardless of order, as the claim states. -/
theorem collision_error_depends_on_record_order :
    retrieve_metadata [("c1", exMeta), ("c2", exMeta)]
        = .error (.pyError (.keyError "p"))
  ∧ isFileCollisionError
      (retrieve_metadata [("c1", exMeta), ("c2", exMeta)]) = false
  ∧ isFileCollisionError
      (retrieve_metadata
        [("p", ⟨"P", "", "CollectionType", 0, false⟩),
         ("c1", exMeta), ("c2", exMeta)]) = true :=
  ⟨rfl, rfl, rfl⟩

/-- C1 (amended).  For every sequence of raw metadata records
containing two non-deleted, non-trashed records that share the
(visibleName, parent) key, the load always aborts with a fatal error,
regardless of record order; the error raised at the insertion of the
colliding record is `FileCollision` (with the full path) exactly when
the record's ancestor chain resolves in the by-uuid index built so
far, and the `KeyError` (or recursion error) escaping from the
collision message's `fullpath` call otherwise. -/
theorem retrieve_metadata_duplicate_key_fatal :
    (∀ (l1 l2 l3 : List (String × Meta)) (ua ub : String) (ma mb : Meta),
        live ma → live mb → keyOf ma = keyOf mb →
        ∃ e, retrieve_metadata (l1 ++ (ua, ma) :: l2 ++ (ub, mb) :: l3)
          = .error e)
  ∧ (∀ (idx : Index) (u : String) (m : Meta),
        live m →
        (get_metadata_by_name_and_parent idx m.visibleName m.parent).isSome →
        insertRecord idx u m =
          match fullpath (dictInsert idx.metadata_by_uuid u m)
              ((dictInsert idx.metadata_by_uuid u m).length + 1) m with
          | .ok p => .error (.fileCollision p)
          | .error e => .error (.pyError e)) :=
  ⟨fun l1 l2 l3 ua ub ma mb hla hlb hk =>
      loadAux_dup_fatal l1 emptyIndex ua ma l2 ub mb l3 hla hlb hk,
    fun _ u m hl hc => insertRecord_collision hl hc⟩

theorem retrieve_metadata_duplicate_key_fatal_witness :
    ∃ e, retrieve_metadata [("c1", exMeta), ("c2", exMeta)] = .error e :=
  retrieve_metadata_duplicate_key_fatal.1 [] [] [] "c1" "c2" exMeta exMeta
    (by decide) (by decide) rfl

/-- C2.  A record with `deleted = true` or `parent = "trash"` is
skipped at load time: after a successful `retrieve_metadata` run over
records with distinct uuids, such a record's uuid appears in none of
the four index structures, and consequently none of the lookup
operations that drive DocumentTree construction (`Node.__init__` via
`get_metadata_by_name_and_parent`, `Folder.build` via
`get_metadata_by_parent`, pull anchors via `get_metadata_by_name`)
can ever resolve to it. -/
theorem soft_deleted_records_invisible :
    ∀ (rs : List (String × Meta)) (idx : Index) (u : String) (m : Meta),
      (rs.map Prod.fst).Nodup →
      (u, m) ∈ rs →
      (m.deleted = true ∨ m.parent = "trash") →
      retrieve_metadata rs = .ok idx →
      recordAbsent idx u
      ∧ get_metadata_by_uuid idx u = none
      ∧ (∀ name d, get_metadata_by_name idx name = some d → d.lookup u = none)
      ∧ (∀ parent, (get_metadata_by_parent idx parent).lookup u = none)
      ∧ (∀ name parent x,
          get_metadata_by_name_and_parent idx name parent = some x → x.1 ≠ u) := by
  intro rs idx u m hnd hm hdel hload
  have hdead : ∀ p ∈ rs, p.1 = u →
      (p.2.deleted || p.2.parent == "trash") = true := by
    intro p hp hpu
    have hpm := nodup_fst_unique hnd hm hp hpu
    subst hpm
    rcases hdel with h | h <;> simp [h]
  have ha := loadAux_preserves_absent rs emptyIndex idx u
    (recordAbsent_empty u) hdead hload
  obtain ⟨h1, h2, h3, h4⟩ := ha
  refine ⟨⟨h1, h2, h3, h4⟩, h1, ?_, ?_, ?_⟩
  · intro name d hd
    exact h2 _ (lookup_eq_some_mem hd)
  · intro parent
    unfold get_metadata_by_parent
    cases hd : idx.metadata_by_parent.lookup parent with
    | none => simp
    | some d => simpa using h3 _ (lookup_eq_some_mem hd)
  · intro name parent x hx
    exact h4 _ (lookup_eq_some_mem hx)

def dm : Meta := ⟨"Gone", "", "DocumentType", 1, true⟩
def tm : Meta := ⟨"Trashed", "trash", "DocumentType", 2, false⟩
def lm : Meta := ⟨"Live", "", "DocumentType", 3, false⟩

/-- The index loaded from one deleted, one trashed and one live
record: only the live record is indexed. -/
def rootIdx : Index :=
  ⟨[("u1", lm)], [("Live", [("u1", lm)])], [("", [("u1", lm)])],
    [(("Live", ""), ("u1", lm))]⟩

theorem soft_deleted_records_invisible_witness :
    (recordAbsent rootIdx "d1" ∧ get_metadata_by_uuid rootIdx "d1" = none)
    ∧ (recordAbsent rootIdx "t1" ∧ get_metadata_by_uuid rootIdx "t1" = none) :=
  ⟨⟨(soft_deleted_records_invisible [("d1", dm), ("t1", tm), ("u1", lm)]
        rootIdx "d1" dm (by decide) (by decide) (Or.inl rfl) (by rfl)).1,
    (soft_deleted_records_invisible [("d1", dm), ("t1", tm), ("u1", lm)]
        rootIdx "d1" dm (by decide) (by decide) (Or.inl rfl) (by rfl)).2.1⟩,
   ⟨(soft_deleted_records_invisible [("d1", dm), ("t1", tm), ("u1", lm)]
        rootIdx "t1" tm (by decide) (by decide) (Or.inr rfl) (by rfl)).1,
    (soft_deleted_records_invisible [("d1", dm), ("t1", tm), ("u1", lm)]
        rootIdx "t1" tm (by decide) (by decide) (Or.inr rfl) (by rfl)).2.1⟩⟩

/-- C7 counterexample.  `rootIdx` is the index loaded from the single
root-level record ("u1", lm) (parent is the empty string).  After
`remove_uuid "u1"` the by-uuid entry is gone, but "u1" is still listed
in its parent's by-parent set (the entry under the empty key), because
`remove_uuid` skips the by-parent update whenever the record's parent
is the empty string. -/
theorem remove_uuid_root_keeps_by_parent_entry :
    retrieve_metadata [("u1", lm)] = .ok rootIdx
  ∧ remove_uuid rootIdx "u1"
      = some ⟨[], [("Live", [("u1", lm)])], [("", [("u1", lm)])],
              [(("Live", ""), ("u1", lm))]⟩ :=
  ⟨rfl, rfl⟩

/-- C7 (amended).  For an id present in the by-id index whose record
has a non-empty parent (listed with its siblings in by-parent),
`remove_uuid` deletes the by-id entry, removes the id from the
parent's by-parent set — dropping that entry entirely when it becomes
empty — and leaves by-name, by-name-and-parent, and every other
by-parent entry unchanged.  For an id whose record has the empty
parent, only the by-id entry is deleted: by-parent is left entirely
untouched (the id remains in the empty-key by-parent set). -/
theorem remove_uuid_frame :
    (∀ (idx : Index) (u : String) (m : Meta) (sib : List (String × Meta)),
        idx.metadata_by_uuid.lookup u = some m →
        m.parent ≠ "" →
        idx.metadata_by_parent.lookup m.parent = some sib →
        (sib.lookup u).isSome →
        ∃ idx', remove_uuid idx u = some idx'
          ∧ idx'.metadata_by_uuid.lookup u = none
          ∧ (∀ v, v ≠ u →
              idx'.metadata_by_uuid.lookup v = idx.metadata_by_uuid.lookup v)
          ∧ idx'.metadata_by_name = idx.metadata_by_name
          ∧ idx'.metadata_by_name_and_parent = idx.metadata_by_name_and_parent
          ∧ (∀ d, idx'.metadata_by_parent.lookup m.parent = some d →
              d.lookup u = none)
          ∧ ((dictErase sib u).isEmpty = true →
              idx'.metadata_by_parent.lookup m.parent = none)
          ∧ ((dictErase sib u).isEmpty = false →
              idx'.metadata_by_parent.lookup m.parent = some (dictErase sib u))
          ∧ (∀ q, q ≠ m.parent →
              idx'.metadata_by_parent.lookup q = idx.metadata_by_parent.lookup q))
  ∧ (∀ (idx : Index) (u : String) (m : Meta),
        idx.metadata_by_uuid.lookup u = some m →
        m.parent = "" →
        ∃ idx', remove_uuid idx u = some idx'
          ∧ idx'.metadata_by_uuid.lookup u = none
          ∧ (∀ v, v ≠ u →
              idx'.metadata_by_uuid.lookup v = idx.metadata_by_uuid.lookup v)
          ∧ idx'.metadata_by_name = idx.metadata_by_name
          ∧ idx'.metadata_by_parent = idx.metadata_by_parent
          ∧ idx'.metadata_by_name_and_parent = idx.metadata_by_name_and_parent) := by
  constructor
  · intro idx u m sib hbyu hp hsib hs
    refine ⟨⟨dictErase idx.metadata_by_uuid u, idx.metadata_by_name,
      (if (dictErase sib u).isEmpty then
        dictErase idx.metadata_by_parent m.parent
       else dictInsert idx.metadata_by_parent m.parent (dictErase sib u)),
      idx.metadata_by_name_and_parent⟩, ?_, ?_, ?_, rfl, rfl, ?_, ?_, ?_, ?_⟩
    · simp only [remove_uuid, hbyu]
      rw [if_neg hp]
      simp only [hsib]
      rw [if_pos hs]
    · simp [lookup_dictErase]
    · intro v hv
      simp [lookup_dictErase, beq_false_of_ne hv]
    · intro d hd
      by_cases he : (dictErase sib u).isEmpty
      · rw [if_pos he] at hd
        simp [lookup_dictErase] at hd
      · rw [if_neg he] at hd
        simp only [lookup_dictInsert, beq_self_eq_true, if_true] at hd
        cases hd
        simp [lookup_dictErase]
    · intro he
      simp only [he, if_true]
      simp [lookup_dictErase]
    · intro he
      simp only [he, Bool.false_eq_true, if_false]
      simp [lookup_dictInsert]
    · intro q hq
      by_cases he : (dictErase sib u).isEmpty
      · simp [he, lookup_dictErase, beq_false_of_ne hq]
      · simp [he, lookup_dictInsert, beq_false_of_ne hq]
  · intro idx u m hbyu hp
    refine ⟨⟨dictErase idx.metadata_by_uuid u, idx.metadata_by_name,
      idx.metadata_by_parent, idx.metadata_by_name_and_parent⟩,
      ?_, ?_, ?_, rfl, rfl, rfl⟩
    · simp only [remove_uuid, hbyu]
      rw [if_pos hp]
    · simp [lookup_dictErase]
    · intro v hv
      simp [lookup_dictErase, beq_false_of_ne hv]

def folderMeta : Meta := ⟨"Dir", "", "CollectionType", 0, false⟩
def childMeta : Meta := ⟨"Doc", "par", "DocumentType", 4, false⟩

/-- The index loaded from a root folder "par" and one child "u2". -/
def parentChildIdx : Index :=
  ⟨[("par", folderMeta), ("u2", childMeta)],
   [("Dir", [("par", folderMeta)]), ("Doc", [("u2", childMeta)])],
   [("", [("par", folderMeta)]), ("par", [("u2", childMeta)])],
   [(("Dir", ""), ("par", folderMeta)), (("Doc", "par"), ("u2", childMeta))]⟩

theorem remove_uuid_frame_witness :
    ∃ idx', remove_uuid parentChildIdx "u2" = some idx'
      ∧ idx'.metadata_by_uuid.lookup "u2" = none
      ∧ (∀ v, v ≠ "u2" →
          idx'.metadata_by_uuid.lookup v = parentChildIdx.metadata_by_uuid.lookup v)
      ∧ idx'.metadata_by_name = parentChildIdx.metadata_by_name
      ∧ idx'.metadata_by_name_and_parent
          = parentChildIdx.metadata_by_name_and_parent
      ∧ (∀ d, idx'.metadata_by_parent.lookup childMeta.parent = some d →
          d.lookup "u2" = none)
      ∧ ((dictErase [("u2", childMeta)] "u2").isEmpty = true →
          idx'.metadata_by_parent.lookup childMeta.parent = none)
      ∧ ((dictErase [("u2", childMeta)] "u2").isEmpty = false →
          idx'.metadata_by_parent.lookup childMeta.parent
            = some (dictErase [("u2", childMeta)] "u2"))
      ∧ (∀ q, q ≠ childMeta.parent →
          idx'.metadata_by_parent.lookup q
            = parentChildIdx.metadata_by_parent.lookup q) :=
  remove_uuid_frame.1 parentChildIdx "u2" childMeta [("u2", childMeta)]
    (by rfl) (by decide) (by rfl) (by rfl)

/-- The `--if-exists` policy choices of the argument parser. -/
inductive IfExists where
  | skip | overwrite | doconly | duplicate
deriving DecidableEq, Repr

/-- The per-node state mutated by the policy dispatch.  The source's
attribute names are `id`, `exists` and `gets_modified`; `exists` is
spelled `exists_remotely` here. -/
structure NodeState where
  id : Option String
  exists_remotely : Bool
  gets_modified : Bool
deriving DecidableEq, Repr

/-- `Node.__init__` identity resolution (lookup of (name, parent key)
in by-name-and-parent; the parent key is the already-resolved parent's
id, or the empty string at root) followed by the `--if-exists`
dispatch of `construct_node_tree_from_disk` for a Document node.
`fresh` is the uuid that `gen_did()` returns inside the `duplicate`
branch (uuid4, produced externally).  The `doconly` branch also swaps
the node's render function to a content-only copy; that render-time
behavior is outside this state triple. -/
def construct_document_node (idx : Index) (name parentKey : String)
    (policy : IfExists) (fresh : String) : NodeState :=
  let node0 : NodeState :=
    match get_metadata_by_name_and_parent idx name parentKey with
    | some (u, _) => ⟨some u, true, false⟩
    | none => ⟨none, false, false⟩
  if node0.exists_remotely then
    match policy with
    | .skip => node0
    | .overwrite => { node0 with exists_remotely := false, gets_modified := true }
    | .doconly => { node0 with exists_remotely := false, gets_modified := true }
    | .duplicate => { node0 with id := some fresh, exists_remotely := false }
  else node0

/-- C4 counterexample.  In `parentChildIdx`, ("Doc", "par") resolves
to the existing uuid "u2".  Under `overwrite` and `doconly` the code
sets `exists = False` and `gets_modified = True` but keeps
`node.id = "u2"` — the resolved identity is retained (that is how the
re-render replaces the remote item in place), not discarded as the
claim states. -/
theorem overwrite_keeps_resolved_identity :
    construct_document_node parentChildIdx "Doc" "par" .overwrite "fresh9"
      = ⟨some "u2", false, true⟩
  ∧ construct_document_node parentChildIdx "Doc" "par" .doconly "fresh9"
      = ⟨some "u2", false, true⟩
  ∧ (some "u2" : Option String) ≠ none :=
  ⟨rfl, rfl, by simp⟩

/-- C4 (amended).  For every Document node whose (name, parent-key)
resolves against by-name-and-parent to an existing record (u, m), the
policy dispatch deterministically yields: `skip` keeps the node
unmodified with `exists = True`; `overwrite` and `doconly` keep the
resolved identity `u` but clear `exists` (the node is re-rendered as
if absent, under the same uuid) and set `gets_modified = True`;
`duplicate` assigns the freshly generated identity with
`exists = False` — and if the fresh uuid is not among the loaded
uuids, the duplicate's identity reuses no existing identifier. -/
theorem push_policy_determines_node_state :
    ∀ (idx : Index) (name parentKey fresh u : String) (m : Meta),
      get_metadata_by_name_and_parent idx name parentKey = some (u, m) →
      construct_document_node idx name parentKey .skip fresh
        = ⟨some u, true, false⟩
      ∧ construct_document_node idx name parentKey .overwrite fresh
        = ⟨some u, false, true⟩
      ∧ construct_document_node idx name parentKey .doconly fresh
        = ⟨some u, false, true⟩
      ∧ construct_document_node idx name parentKey .duplicate fresh
        = ⟨some fresh, false, false⟩
      ∧ (fresh ∉ idx.metadata_by_uuid.map Prod.fst →
          ∀ v ∈ idx.metadata_by_uuid.map Prod.fst,
            (construct_document_node idx name parentKey .duplicate fresh).id
              ≠ some v) := by
  intro idx name parentKey fresh u m h
  refine ⟨?_, ?_, ?_, ?_, ?_⟩
  · simp [construct_document_node, h]
  · simp [construct_document_node, h]
  · simp [construct_document_node, h]
  · simp [construct_document_node, h]
  · intro hf v hv
    simp only [construct_document_node, h]
    intro heq
    simp at heq
    exact hf (heq ▸ hv)

theorem push_policy_determines_node_state_witness :
    construct_document_node parentChildIdx "Doc" "par" .skip "f9"
      = ⟨some "u2", true, false⟩
  ∧ construct_document_node parentChildIdx "Doc" "par" .duplicate "f9"
      = ⟨some "f9", false, false⟩ :=
  ⟨(push_policy_determines_node_state parentChildIdx "Doc" "par" "f9" "u2"
      childMeta rfl).1,
   (push_policy_determines_node_state parentChildIdx "Doc" "par" "f9" "u2"
      childMeta rfl).2.2.2.1⟩

/-- Outcome of resolving one named pull anchor in
`pull_from_remarkable`. -/
inductive AnchorResult where
  | skipped
  | documentNode (name : String)
  | folderNode (name : String)
  | keyError (key : String)
deriving DecidableEq, Repr

/-- The per-anchor resolution of `pull_from_remarkable`:
`metadata = get_metadata_by_name(target)`; `None` prints "Cannot find,
skipping" (`skipped`).  Otherwise the source evaluates
`metadata['type']` — but `metadata` is the by-name inner dict mapping
uuid to record, so the subscript looks up the literal key "type" in a
uuid-keyed dict: a `KeyError` unless some uuid is literally "type".
In that unreachable-in-practice case the record dict is compared
against the string 'DocumentType', which is unequal regardless of the
record's kind, so the Folder branch would be taken. -/
def resolve_pull_anchor (idx : Index) (target : String) : AnchorResult :=
  match get_metadata_by_name idx target with
  | none => .skipped
  | some d =>
    match d.lookup "type" with
    | none => .keyError "type"
    | some _ => .folderNode target

/-- C8.  Resolving the anchor "Live" against the index loaded from the
single record ("u1", lm) raises `KeyError("type")` instead of
constructing a Document node of the record's kind: the by-name lookup
returns the uuid-keyed inner dict, and `metadata['type']` subscripts
it with the literal string "type".  A name with zero matches is still
skipped non-fatally, as claimed. -/
theorem pull_anchor_found_raises_keyerror :
    retrieve_metadata [("u1", lm)] = .ok rootIdx
  ∧ resolve_pull_anchor rootIdx "Live" = .keyError "type"
  ∧ resolve_pull_anchor rootIdx "Nope" = .skipped :=
  ⟨rfl, rfl, rfl⟩

/-- Result of the orphan-purge pass: the Python return value (always
`None` — the function has no return statement) and the filenames
removed at the storage layer. -/
structure OrphanResult where
  ret : Option Bool
  storageRemoved : List String
deriving DecidableEq, Repr

/-- `cleanup_orphaned()`: `files` is the remote listing of orphaned
filenames, `l = len(files.split("\n"))`; an empty listing splits into
one empty entry, so `l = 1` means no orphans (and a single orphan also
yields `l = 1`, so it is never removed).  Under dryrun the listing is
only printed.  Otherwise, upon confirmation, the orphans are removed
at the storage layer.  Every control path falls off the end of the
function: the return value is `None` on all of them. -/
def cleanup_orphaned (orphans : List String) (dryrun : Bool) (confirm : Bool) :
    OrphanResult :=
  let l := if orphans.isEmpty then 1 else orphans.length
  if l == 1 then ⟨none, []⟩
  else if dryrun then ⟨none, []⟩
  else if confirm then ⟨none, orphans⟩
  else ⟨none, []⟩

/-- Clean-mode dispatch (the `elif args.mode == 'clean'` block):
`r1 = cleanup_deleted()`, then `cleanup_orphaned()` with its return
value discarded, `r2 = cleanup_duplicates()`,
`r3 = cleanup_emptydir()`; the remote service is restarted iff the run
is not a dry run and `r1 or r2 or r3`. -/
def clean_mode_restart (dryrun r1 r2 r3 : Bool) : Bool :=
  !dryrun && (r1 || r2 || r3)

/-- C9 counterexample.  A clean run in which the orphan purge removes
two files at the storage layer while the other three passes report no
change: the orphan pass returns `None` (not a boolean), its return
value is discarded by the dispatch, and no restart is issued — the
claim's "restart iff at least one of the four passes reported a
mutation" fails, as does "each of the four passes returns a
boolean". -/
theorem orphan_pass_returns_no_boolean :
    cleanup_orphaned ["f1", "f2"] false true = ⟨none, ["f1", "f2"]⟩
  ∧ (cleanup_orphaned ["f1", "f2"] false true).storageRemoved ≠ []
  ∧ clean_mode_restart false false false false = false :=
  ⟨rfl, by decide, rfl⟩

/-- C9 (amended).  The trash-purge, duplicate-resolution and
empty-collection passes return booleans `r1, r2, r3`; the orphan purge
returns no value (`None`) and is not consulted.  The remote service is
restarted iff the run is not a dry run and at least one of `r1, r2,
r3` is true — orphan-purge mutations never trigger a restart. -/
theorem clean_restart_ignores_orphan_pass :
    (∀ (orphans : List String) (dryrun confirm : Bool),
        (cleanup_orphaned orphans dryrun confirm).ret = none)
  ∧ (∀ (dryrun r1 r2 r3 : Bool),
        clean_mode_restart dryrun r1 r2 r3 = true
          ↔ (dryrun = false ∧ (r1 = true ∨ r2 = true ∨ r3 = true))) := by
  constructor
  · intro orphans dryrun confirm
    simp only [cleanup_orphaned]
    repeat' split
    all_goals rfl
  · intro dryrun r1 r2 r3
    simp [clean_mode_restart, Bool.and_eq_true, Bool.not_eq_true',
      Bool.or_eq_true, or_assoc]

theorem clean_restart_ignores_orphan_pass_witness :
    (cleanup_orphaned ["f1"] false true).ret = none
  ∧ (clean_mode_restart false true false false = true ↔
      (false = false ∧ (true = true ∨ true = true ∨ false = true))) :=
  ⟨clean_restart_ignores_orphan_pass.1 ["f1"] false true,
   clean_restart_ignores_orphan_pass.2 false true true false⟩

/-- A document-tree node as built for push or pull: `name` plus the
ordered children list.  The parent back-reference of the source is
represented by passing the parent's full path (`pfx`) down the
recursion; identity resolution is irrelevant to pruning. -/
structure PNode where
  mk ::
  name : String
  children : List PNode
deriving Repr

/-- `get_full_path()`: the parent's path, a slash, and the node's
name; a parentless node is its own path root. -/
def fullPathOf (pfx : Option String) (name : String) : String :=
  match pfx with
  | none => name
  | some p => p ++ "/" ++ name

mutual
/-- `curb_tree(node, excludelist)`: if any exclude pattern matches the
node's full path (the source uses `re.match`, modelled by the abstract
matcher `m`), report "root removed" (`none`, the Python `True`) and
never look at the children; otherwise rebuild the children from the
recursively curbed ones and keep the node (`some`, the Python falsy
return, with the in-place mutation made explicit). -/
def curb_tree (m : String → String → Bool) (excl : List String)
    (pfx : Option String) : PNode → Option PNode
  | PNode.mk name children =>
    let full := fullPathOf pfx name
    if excl.any (fun exc => m exc full) then none
    else some (PNode.mk name (curb_children m excl (some full) children))

/-- The `uncurbed_children` accumulation loop of `curb_tree`. -/
def curb_children (m : String → String → Bool) (excl : List String)
    (pfx : Option String) : List PNode → List PNode
  | [] => []
  | c :: cs =>
    match curb_tree m excl pfx c with
    | none => curb_children m excl pfx cs
    | some c' => c' :: curb_children m excl pfx cs
end

mutual
/-- All full paths of a tree, in preorder. -/
def nodePaths (pfx : Option String) : PNode → List String
  | PNode.mk name children =>
    fullPathOf pfx name :: childPaths (some (fullPathOf pfx name)) children

def childPaths (pfx : Option String) : List PNode → List String
  | [] => []
  | c :: cs => nodePaths pfx c ++ childPaths pfx cs
end

mutual
/-- The full paths that survive pruning: a node whose own path matches
some pattern contributes nothing (its children are not even examined);
otherwise it contributes its path and its children's surviving
paths. -/
def keptPaths (m : String → String → Bool) (excl : List String)
    (pfx : Option String) : PNode → List String
  | PNode.mk name children =>
    let full := fullPathOf pfx name
    if excl.any (fun exc => m exc full) then []
    else full :: keptChildPaths m excl (some full) children

def keptChildPaths (m : String → String → Bool) (excl : List String)
    (pfx : Option String) : List PNode → List String
  | [] => []
  | c :: cs => keptPaths m excl pfx c ++ keptChildPaths m excl pfx cs
end

/-- The caller side in `push_to_remarkable` (and per-anchor in
`pull_from_remarkable`): roots for which `curb_tree` returned `True`
are omitted from the result set. -/
def curb_roots (m : String → String → Bool) (excl : List String)
    (roots : List PNode) : List PNode :=
  roots.filterMap (curb_tree m excl none)

theorem curb_tree_none_iff (m : String → String → Bool) (excl : List String)
    (pfx : Option String) (n : PNode) :
    curb_tree m excl pfx n = none
      ↔ excl.any (fun exc => m exc (fullPathOf pfx n.name)) = true := by
  cases n with
  | mk name children =>
    simp only [curb_tree]
    by_cases hm : excl.any (fun exc => m exc (fullPathOf pfx name)) = true
    · simp [hm]
    · simp [hm]

theorem keptPaths_of_match {m : String → String → Bool} {excl : List String}
    {pfx : Option String} {n : PNode}
    (h : excl.any (fun exc => m exc (fullPathOf pfx n.name)) = true) :
    keptPaths m excl pfx n = [] := by
  cases n with
  | mk name children => simp only [keptPaths] at *; simp [h]

mutual
theorem curb_tree_paths (m : String → String → Bool) (excl : List String)
    (pfx : Option String) (n : PNode) :
    ∀ n', curb_tree m excl pfx n = some n' →
      nodePaths pfx n' = keptPaths m excl pfx n := by
  cases n with
  | mk name children =>
    intro n' h
    simp only [curb_tree] at h
    by_cases hm : excl.any (fun exc => m exc (fullPathOf pfx name)) = true
    · simp [hm] at h
    · rw [if_neg hm] at h
      cases h
      simp only [nodePaths, keptPaths]
      rw [if_neg hm]
      exact congrArg _
        (curb_children_paths m excl (some (fullPathOf pfx name)) children)

theorem curb_children_paths (m : String → String → Bool) (excl : List String)
    (pfx : Option String) (l : List PNode) :
    childPaths pfx (curb_children m excl pfx l)
      = keptChildPaths m excl pfx l := by
  cases l with
  | nil => simp [curb_children, childPaths, keptChildPaths]
  | cons c cs =>
    simp only [curb_children]
    cases hc : curb_tree m excl pfx c with
    | none =>
      have hm := (curb_tree_none_iff m excl pfx c).mp hc
      simp only [keptChildPaths, keptPaths_of_match hm, List.nil_append]
      exact curb_children_paths m excl pfx cs
    | some c' =>
      simp only [childPaths, keptChildPaths]
      rw [curb_tree_paths m excl pfx c c' hc,
        curb_children_paths m excl pfx cs]
end

theorem curb_tree_keeps_name (m : String → String → Bool) (excl : List String)
    (pfx : Option String) (n n' : PNode)
    (h : curb_tree m excl pfx n = some n') : n'.name = n.name := by
  cases n with
  | mk name children =>
    simp only [curb_tree] at h
    by_cases hm : excl.any (fun exc => m exc (fullPathOf pfx name)) = true
    · simp [hm] at h
    · rw [if_neg hm] at h
      cases h
      rfl

/-- C3.  Pruning: `curb_tree` reports "root excluded" (`True`, without
mutating the tree) exactly when the root's own full path matches a
pattern, and the caller then omits that root.  When the root survives,
the curbed tree keeps the root's name and its preorder path list
equals exactly the paths of those original nodes with no
matched ancestor-or-self — every node inside a matched subtree is
gone (a matched node's children are never evaluated: they contribute
nothing regardless of whether they match), and every node outside the
matched subtrees is retained unchanged, in order.  Quantified over an
arbitrary pattern matcher `m` standing for `re.match`. -/
theorem curb_tree_prunes_matched_subtrees :
    (∀ (m : String → String → Bool) (excl : List String)
        (pfx : Option String) (n : PNode),
        curb_tree m excl pfx n = none
          ↔ excl.any (fun exc => m exc (fullPathOf pfx n.name)) = true)
  ∧ (∀ (m : String → String → Bool) (excl : List String)
        (pfx : Option String) (n n' : PNode),
        curb_tree m excl pfx n = some n' →
        n'.name = n.name ∧ nodePaths pfx n' = keptPaths m excl pfx n)
  ∧ (∀ (m : String → String → Bool) (excl : List String)
        (roots : List PNode),
        (curb_roots m excl roots).flatMap (nodePaths none)
          = roots.flatMap (keptPaths m excl none)) := by
  refine ⟨curb_tree_none_iff, ?_, ?_⟩
  · intro m excl pfx n n' h
    exact ⟨curb_tree_keeps_name m excl pfx n n' h,
      curb_tree_paths m excl pfx n n' h⟩
  · intro m excl roots
    induction roots with
    | nil => rfl
    | cons r rs ih =>
      simp only [curb_roots, List.filterMap_cons]
      cases hr : curb_tree m excl none r with
      | none =>
        have hm := (curb_tree_none_iff m excl none r).mp hr
        simp only [List.flatMap_cons, keptPaths_of_match hm, List.nil_append]
        simpa [curb_roots] using ih
      | some r' =>
        simp only [List.flatMap_cons]
        rw [curb_tree_paths m excl none r r' hr]
        simp only [curb_roots] at ih
        rw [ih]

/-- Equality matching, a concrete instance of the abstract pattern
matcher used to exercise the pruning theorem. -/
def matchEq (exc path : String) : Bool := exc == path

def c3tree : PNode :=
  PNode.mk "a" [PNode.mk "b" [PNode.mk "c" []], PNode.mk "d" []]

theorem curb_tree_prunes_matched_subtrees_witness :
    (PNode.mk "a" [PNode.mk "d" []]).name = c3tree.name
  ∧ nodePaths none (PNode.mk "a" [PNode.mk "d" []])
      = keptPaths matchEq ["a/b"] none c3tree :=
  curb_tree_prunes_matched_subtrees.2.1 matchEq ["a/b"] none c3tree
    (PNode.mk "a" [PNode.mk "d" []]) rfl

/-- The comparison underlying `sorted(tmp, reverse=True)` in
`cleanup_duplicates`: `tmp` holds `(int(lastModified), uuid, metadata)`
triples and Python tuple comparison is lexicographic, so with
distinct (timestamp, uuid) pairs the metadata component never
participates; `candLE a b` says `a` may precede `b` in the descending
order. -/
def candLE (a b : Int × String) : Bool :=
  decide (b.1 < a.1) || (decide (a.1 = b.1) && decide (b.2 ≤ a.2))

/-- `tmp = sorted(tmp, reverse=True)`. -/
def sortCandidates (tmp : List (Int × String)) : List (Int × String) :=
  tmp.mergeSort candLE

/-- Operator decision for one duplicate group. -/
inductive DupChoice where
  | keep (i : Nat)
  | skipGroup
  | stopAll
deriving DecidableEq, Repr

/-- The selection prompt loop of `cleanup_duplicates` for one group.
`len` is the candidate count, `inputs` the operator's successive
answers.  A single candidate is kept automatically before any input is
read ("Due to the anomaly, there is only one candidate which I
keep."); empty input selects index 0 (the newest); "n" skips the
group; "N" stops the whole pass; an unparsable or out-of-range number
prints a message and re-prompts.  `none` models an exhausted input
stream (the real program would block on `input()`). -/
def select_candidate (len : Nat) : List String → Option (DupChoice × List String)
  | [] => if len == 1 then some (.keep 0, []) else none
  | s :: rest =>
    if len == 1 then some (.keep 0, s :: rest)
    else if s == "" then some (.keep 0, rest)
    else if s == "n" then some (.skipGroup, rest)
    else if s == "N" then some (.stopAll, rest)
    else
      match s.toInt? with
      | none => select_candidate len rest
      | some i =>
        if 0 ≤ i && i < (len : Int) then some (.keep i.toNat, rest)
        else select_candidate len rest

/-- Result of one duplicate group: the sorted candidate list as
presented, the operator's decision, the kept uuid (if any), the uuids
removed (each removed via `remove_uuid` and a storage-level rm in the
source), and the remaining operator input. -/
structure GroupResult where
  sorted : List (Int × String)
  choice : DupChoice
  kept : Option String
  removed : List String
  rest : List String
deriving DecidableEq, Repr

/-- One fingerprint group of `cleanup_duplicates` (`database[md5]`
with at least the grouping done): collect `(int(lastModified), uuid)`
for members whose metadata exists (a missing-metadata member is
reported and skipped), sort descending, run the selection loop, and —
for a `keep` decision — remove every candidate other than the kept
one, in sorted order.  An empty candidate list with a `keep` decision
is the source's `tmp[i]` IndexError, modelled as `none`. -/
def process_duplicate_group (idx : Index) (group : List String)
    (inputs : List String) : Option GroupResult :=
  let tmp := group.filterMap
    (fun u => (get_metadata_by_uuid idx u).map (fun md => (md.lastModified, u)))
  let sorted := sortCandidates tmp
  match select_candidate sorted.length inputs with
  | none => none
  | some (.keep i, rest) =>
    match sorted.get? i with
    | none => none
    | some p =>
      some ⟨sorted, .keep i, some p.2,
        sorted.filterMap (fun q => if q.2 == p.2 then none else some q.2), rest⟩
  | some (.skipGroup, rest) => some ⟨sorted, .skipGroup, none, [], rest⟩
  | some (.stopAll, rest) => some ⟨sorted, .stopAll, none, [], rest⟩

theorem candLE_trans :
    ∀ (a b c : Int × String),
      candLE a b = true → candLE b c = true → candLE a c = true := by
  intro a b c hab hbc
  simp only [candLE, Bool.or_eq_true, Bool.and_eq_true, decide_eq_true_eq]
    at hab hbc ⊢
  rcases hab with h1 | ⟨h1, h1'⟩ <;> rcases hbc with h2 | ⟨h2, h2'⟩
  · left; omega
  · left; omega
  · left; omega
  · exact Or.inr ⟨h1.trans h2, h2'.trans h1'⟩

theorem candLE_total :
    ∀ (a b : Int × String), (candLE a b || candLE b a) = true := by
  intro a b
  simp only [candLE, Bool.or_eq_true, Bool.and_eq_true, decide_eq_true_eq]
  rcases lt_trichotomy a.1 b.1 with h | h | h
  · right; left; exact h
  · rcases le_total b.2 a.2 with h' | h'
    · left; right; exact ⟨h, h'⟩
    · right; right; exact ⟨h.symm, h'⟩
  · left; left; exact h

theorem filterMap_drop_key {key : String} :
    ∀ (l : List (Int × String)), key ∉ l.map Prod.snd →
      l.filterMap (fun q => if q.2 == key then none else some q.2)
        = l.map Prod.snd := by
  intro l
  induction l with
  | nil => intro _; rfl
  | cons r t ih =>
    intro h
    simp only [List.map_cons, List.mem_cons, not_or] at h
    simp only [List.filterMap_cons, beq_false_of_ne (Ne.symm h.1),
      Bool.false_eq_true, if_false, List.map_cons]
    rw [ih h.2]

theorem filterMap_drop_head {p : Int × String} {l : List (Int × String)}
    (h : p.2 ∉ l.map Prod.snd) :
    (p :: l).filterMap (fun q => if q.2 == p.2 then none else some q.2)
      = l.map Prod.snd := by
  rw [List.filterMap_cons_none (by simp), filterMap_drop_key l h]

/-- C5.  Duplicate resolution: the candidates of a fingerprint group
are sorted by `lastModified` descending (a permutation of the
collected candidates) before presentation; with at least two
candidates, an empty operator input keeps the candidate at index 0
(the newest) and removes all the others, consuming one prompt; a group
reduced to a single member is kept automatically, removing nothing and
consuming no operator input at all. -/
theorem cleanup_duplicates_selection :
    (∀ (tmp : List (Int × String)),
        (sortCandidates tmp).Pairwise (fun a b => b.1 ≤ a.1)
        ∧ (sortCandidates tmp).Perm tmp)
  ∧ (∀ (idx : Index) (group rest : List String)
        (p q : Int × String) (tl : List (Int × String)),
        sortCandidates (group.filterMap (fun u =>
            (get_metadata_by_uuid idx u).map
              (fun md => (md.lastModified, u)))) = p :: q :: tl →
        ((p :: q :: tl).map Prod.snd).Nodup →
        process_duplicate_group idx group ("" :: rest)
          = some ⟨p :: q :: tl, .keep 0, some p.2,
              (q :: tl).map Prod.snd, rest⟩)
  ∧ (∀ (idx : Index) (group inputs : List String) (p : Int × String),
        sortCandidates (group.filterMap (fun u =>
            (get_metadata_by_uuid idx u).map
              (fun md => (md.lastModified, u)))) = [p] →
        process_duplicate_group idx group inputs
          = some ⟨[p], .keep 0, some p.2, [], inputs⟩) := by
  refine ⟨?_, ?_, ?_⟩
  · intro tmp
    constructor
    · have h := @List.sorted_mergeSort _ candLE
        candLE_trans candLE_total tmp
      refine h.imp ?_
      intro a b hab
      simp only [candLE, Bool.or_eq_true, Bool.and_eq_true,
        decide_eq_true_eq] at hab
      rcases hab with h1 | ⟨h1, _⟩
      · exact le_of_lt h1
      · exact le_of_eq h1.symm
    · exact List.mergeSort_perm tmp candLE
  · intro idx group rest p q tl hsort hnd
    have hnd1 : p.2 ∉ (q :: tl).map Prod.snd := by
      simp only [List.map_cons, List.nodup_cons] at hnd
      simpa using hnd.1
    simp only [process_duplicate_group]
    rw [hsort]
    have hsel : select_candidate (p :: q :: tl).length ("" :: rest)
        = some (.keep 0, rest) := by
      simp [select_candidate]
    rw [hsel]
    dsimp only
    rw [List.get?_cons_zero]
    dsimp only
    rw [filterMap_drop_head hnd1]
  · intro idx group inputs p hsort
    simp only [process_duplicate_group]
    rw [hsort]
    have hsel : select_candidate [p].length inputs
        = some (.keep 0, inputs) := by
      cases inputs with
      | nil => simp [select_candidate]
      | cons s rest => simp [select_candidate]
    rw [hsel]
    dsimp only
    rw [List.get?_cons_zero]
    dsimp only
    simp

def mA : Meta := ⟨"A", "", "DocumentType", 300, false⟩
def mB : Meta := ⟨"B", "", "DocumentType", 100, false⟩
def mC : Meta := ⟨"C", "", "DocumentType", 200, false⟩

/-- The index loaded from three root documents with timestamps 300,
100 and 200. -/
def dupIdx : Index :=
  ⟨[("ua", mA), ("ub", mB), ("uc", mC)],
   [("A", [("ua", mA)]), ("B", [("ub", mB)]), ("C", [("uc", mC)])],
   [("", [("ua", mA), ("ub", mB), ("uc", mC)])],
   [(("A", ""), ("ua", mA)), (("B", ""), ("ub", mB)),
    (("C", ""), ("uc", mC))]⟩

unseal List.merge List.mergeSort in
theorem cleanup_duplicates_selection_witness :
    retrieve_metadata [("ua", mA), ("ub", mB), ("uc", mC)] = .ok dupIdx
  ∧ process_duplicate_group dupIdx ["ub", "ua", "uc"] [""]
      = some ⟨[(300, "ua"), (200, "uc"), (100, "ub")], .keep 0, some "ua",
              ["uc", "ub"], []⟩
  ∧ process_duplicate_group dupIdx ["ua"] []
      = some ⟨[(300, "ua")], .keep 0, some "ua", [], []⟩ :=
  ⟨by rfl,
   cleanup_duplicates_selection.2.1 dupIdx ["ub", "ua", "uc"] []
     (300, "ua") (200, "uc") [(100, "ub")] (by rfl) (by decide),
   cleanup_duplicates_selection.2.2 dupIdx ["ua"] [] (300, "ua") (by rfl)⟩

/-- One scan of `cleanup_emptydir`: collect every `CollectionType`
record whose uuid is not a `metadata_by_parent` key (no children), in
by-uuid iteration order, without mutating anything ("do not remove
entries within a loop !"). -/
def emptyScan (idx : Index) : List String :=
  idx.metadata_by_uuid.filterMap
    (fun p =>
      if p.2.type == "CollectionType"
          && (idx.metadata_by_parent.lookup p.1).isNone
        then some p.1 else none)

/-- The post-scan removal loop: `for u in _deleted_uuids: remove_uuid(u)`. -/
def removeMany : Index → List String → Option Index
  | idx, [] => some idx
  | idx, u :: us =>
    match remove_uuid idx u with
    | none => none
    | some idx' => removeMany idx' us

/-- The `while empty_found` fixpoint loop of `cleanup_emptydir`:
scan, then delete the discovered empties only after the full scan,
repeating until a scan finds none.  Returns the final index, the
accumulated `deleted_uuids`, and the number of scans performed
(the last scan finds nothing).  `fuel` bounds the iterations; each
looping iteration removes at least one by-uuid entry, so the caller's
fuel always suffices. -/
def emptydirLoop : Nat → Index → List String → Nat →
    Option (Index × List String × Nat)
  | 0, _, _, _ => none
  | fuel+1, idx, acc, iters =>
    let es := emptyScan idx
    if es.isEmpty then some (idx, acc, iters + 1)
    else
      match removeMany idx es with
      | none => none
      | some idx' => emptydirLoop fuel idx' (acc ++ es) (iters + 1)

/-- The in-memory fixpoint portion of `cleanup_emptydir()`. -/
def cleanup_emptydir_core (idx : Index) : Option (Index × List String × Nat) :=
  emptydirLoop (idx.metadata_by_uuid.length + 1) idx [] 0

/-- Full result of `cleanup_emptydir()`: the Python return value, the
index as mutated in memory, the uuids dropped from the index, and the
uuids actually removed at the storage layer. -/
structure EmptydirResult where
  ret : Bool
  idx : Index
  removedFromIndex : List String
  storageRemoved : List String
deriving DecidableEq, Repr

/-- `cleanup_emptydir()`: run the fixpoint loop (mutating the
in-memory index via `remove_uuid` as it goes), then — only if some
empty directory was found — ask for confirmation and issue the batch
storage removal (`ssh rm`, suppressed under dryrun, though the
function still returns True).  `confirm` is the outcome of `ask`
(`args.yes` or the operator's answer). -/
def cleanup_emptydir (idx : Index) (confirm : Bool) (dryrun : Bool) :
    Option EmptydirResult :=
  match cleanup_emptydir_core idx with
  | none => none
  | some (idx', dels, _) =>
    if dels.isEmpty then some ⟨false, idx', dels, []⟩
    else if confirm then some ⟨true, idx', dels, if dryrun then [] else dels⟩
    else some ⟨false, idx', dels, []⟩

/-- A collection record for the nested-chain scenario. -/
def collMeta (name parent : String) : Meta :=
  ⟨name, parent, "CollectionType", 0, false⟩

/-- The by-uuid records of a chain of nested collections: the first
uuid is a root collection, each next one a child of the previous. -/
def chainRecords (parent : String) : List String → List (String × Meta)
  | [] => []
  | u :: rest => (u, collMeta u parent) :: chainRecords u rest

/-- The by-parent index of the same chain: each collection's entry
holds exactly its single child; the innermost has no entry. -/
def chainParentIdx (parent : String) :
    List String → List (String × List (String × Meta))
  | [] => []
  | u :: rest => (parent, [(u, collMeta u parent)]) :: chainParentIdx u rest

/-- The index of a chain of nested collections, innermost empty
(by-name and by-name-and-parent play no role in the empty-collection
pass or in `remove_uuid`). -/
def chainIndex (us : List String) : Index :=
  ⟨chainRecords "" us, [], chainParentIdx "" us, []⟩

/-- The state after the pass has consumed the whole chain: the by-uuid
index is empty; the root's by-parent entry under the empty key
survives because `remove_uuid` skips the by-parent update for
root records. -/
def chainFinal (u : String) : Index :=
  ⟨[], [], [("", [(u, collMeta u "")])], []⟩

section ChainLemmas

theorem lookup_eq_none_iff_keys {κ α : Type} [BEq κ] [LawfulBEq κ]
    (d : List (κ × α)) (k : κ) :
    d.lookup k = none ↔ k ∉ d.map Prod.fst := by
  induction d with
  | nil => simp
  | cons p t ih =>
    obtain ⟨a, b⟩ := p
    by_cases hk : k = a
    · subst hk
      simp [List.lookup_cons]
    · simp only [List.lookup_cons, beq_false_of_ne hk, List.map_cons,
        List.mem_cons]
      rw [ih]
      constructor
      · intro h hmem
        rcases hmem with h' | h'
        · exact hk h'
        · exact h h'
      · intro h h'
        exact h (Or.inr h')

theorem dictErase_of_not_mem_keys {κ α : Type} [BEq κ] [LawfulBEq κ]
    {d : List (κ × α)} {k : κ} (h : k ∉ d.map Prod.fst) :
    dictErase d k = d := by
  induction d with
  | nil => rfl
  | cons p t ih =>
    simp only [List.map_cons, List.mem_cons, not_or] at h
    simp only [dictErase, List.filter_cons, beq_false_of_ne (Ne.symm h.1),
      Bool.not_false, if_true]
    simp only [dictErase] at ih
    rw [ih h.2]

theorem getLastD_mem : ∀ (l : List String) (d : String), l ≠ [] →
    l.getLastD d ∈ l := by
  intro l
  induction l with
  | nil => intro d h; exact absurd rfl h
  | cons a t ih =>
    intro d _
    rw [List.getLastD_cons]
    cases t with
    | nil => exact List.mem_cons_self _ _
    | cons b t2 => exact List.mem_cons_of_mem _ (ih a (by simp))

theorem getLastD_not_mem_dropLast (l : List String) (d : String)
    (h : l ≠ []) (hnd : l.Nodup) : l.getLastD d ∉ l.dropLast := by
  have hgl : l.getLastD d = l.getLast h := by
    rw [List.getLastD_eq_getLast?, List.getLast?_eq_getLast l h]
    rfl
  rw [hgl]
  have hsplit := List.dropLast_append_getLast h
  rw [← hsplit] at hnd
  rw [List.nodup_append] at hnd
  intro hmem
  exact hnd.2.2 hmem (List.mem_singleton.mpr rfl)

theorem chainRecords_keys : ∀ (parent : String) (us : List String),
    (chainRecords parent us).map Prod.fst = us := by
  intro parent us
  induction us generalizing parent with
  | nil => rfl
  | cons u t ih => simp [chainRecords, ih]

theorem chainRecords_mem : ∀ (parent : String) (us : List String)
    (p : String × Meta), p ∈ chainRecords parent us → p.1 ∈ us := by
  intro parent us
  induction us generalizing parent with
  | nil => intro p hp; simp [chainRecords] at hp
  | cons u t ih =>
    intro p hp
    simp only [chainRecords, List.mem_cons] at hp
    rcases hp with h | h
    · simp [h]
    · exact List.mem_cons_of_mem _ (ih u p h)

theorem chainRecords_append : ∀ (us : List String) (parent x : String),
    chainRecords parent (us ++ [x])
      = chainRecords parent us ++ [(x, collMeta x (us.getLastD parent))] := by
  intro us
  induction us with
  | nil => intro parent x; rfl
  | cons u t ih =>
    intro parent x
    simp only [List.cons_append, chainRecords, List.getLastD_cons,
      List.append_eq]
    rw [ih u x]

theorem chainParentIdx_append : ∀ (us : List String) (parent x : String),
    chainParentIdx parent (us ++ [x])
      = chainParentIdx parent us
        ++ [(us.getLastD parent,
              [(x, collMeta x (us.getLastD parent))])] := by
  intro us
  induction us with
  | nil => intro parent x; rfl
  | cons u t ih =>
    intro parent x
    simp only [List.cons_append, chainParentIdx, List.getLastD_cons,
      List.append_eq]
    rw [ih u x]

theorem chainParentIdx_keys : ∀ (us : List String) (parent : String),
    (chainParentIdx parent us).map Prod.fst = (parent :: us).dropLast := by
  intro us
  induction us with
  | nil => intro parent; rfl
  | cons u t ih =>
    intro parent
    simp only [chainParentIdx, List.map_cons]
    rw [ih u]
    rfl

theorem chainParentIdx_keys_append (us : List String) (parent x : String) :
    (chainParentIdx parent (us ++ [x])).map Prod.fst = parent :: us := by
  rw [chainParentIdx_keys]
  rw [show parent :: (us ++ [x]) = (parent :: us) ++ [x] from rfl]
  exact List.dropLast_concat

end ChainLemmas

theorem emptyScan_chainIndex (us : List String) (x : String)
    (hx : x ∉ us) (hxe : x ≠ "") :
    emptyScan (chainIndex (us ++ [x])) = [x] := by
  unfold emptyScan chainIndex
  rw [chainRecords_append, List.filterMap_append]
  have hkeys := chainParentIdx_keys_append us "" x
  have h1 : (chainRecords "" us).filterMap
      (fun p =>
        if p.2.type == "CollectionType"
            && ((chainParentIdx "" (us ++ [x])).lookup p.1).isNone
          then some p.1 else none) = [] := by
    rw [List.filterMap_eq_nil_iff]
    intro p hp
    have hmem : p.1 ∈ us := chainRecords_mem "" us p hp
    have hlook : ¬ ((chainParentIdx "" (us ++ [x])).lookup p.1 = none) := by
      rw [lookup_eq_none_iff_keys, hkeys]
      intro hcontra
      exact hcontra (List.mem_cons_of_mem _ hmem)
    have hnone : ((chainParentIdx "" (us ++ [x])).lookup p.1).isNone = false := by
      cases hcase : (chainParentIdx "" (us ++ [x])).lookup p.1 with
      | none => exact absurd hcase hlook
      | some v => rfl
    simp [hnone]
  have h2 : ([(x, collMeta x (us.getLastD ""))]).filterMap
      (fun p =>
        if p.2.type == "CollectionType"
            && ((chainParentIdx "" (us ++ [x])).lookup p.1).isNone
          then some p.1 else none) = [x] := by
    have hlook : (chainParentIdx "" (us ++ [x])).lookup x = none := by
      rw [lookup_eq_none_iff_keys, hkeys]
      intro hcontra
      rcases List.mem_cons.mp hcontra with h | h
      · exact hxe h
      · exact hx h
    simp [collMeta, hlook]
  rw [h1, h2]
  rfl

theorem remove_uuid_chain_snoc (us : List String) (x : String)
    (hus : us ≠ []) (hnd : us.Nodup)
    (hx : x ∉ us) (hxe : x ≠ "") (hro : "" ∉ us) :
    remove_uuid (chainIndex (us ++ [x])) x = some (chainIndex us) := by
  have hL : us.getLastD "" ∈ us := getLastD_mem us "" hus
  have hLe : us.getLastD "" ≠ "" := fun h => hro (h ▸ hL)
  have hLdrop : us.getLastD "" ∉ us.dropLast :=
    getLastD_not_mem_dropLast us "" hus hnd
  have hbyu : (chainIndex (us ++ [x])).metadata_by_uuid.lookup x
      = some (collMeta x (us.getLastD "")) := by
    show (chainRecords "" (us ++ [x])).lookup x = _
    rw [chainRecords_append, lookup_append]
    have hnone : (chainRecords "" us).lookup x = none := by
      rw [lookup_eq_none_iff_keys, chainRecords_keys]
      exact hx
    rw [hnone]
    simp [List.lookup_cons]
  have hbyp : (chainIndex (us ++ [x])).metadata_by_parent.lookup
        (us.getLastD "")
      = some [(x, collMeta x (us.getLastD ""))] := by
    show (chainParentIdx "" (us ++ [x])).lookup (us.getLastD "") = _
    rw [chainParentIdx_append, lookup_append]
    have hcons : ("" :: us).dropLast = "" :: us.dropLast := by
      cases us with
      | nil => exact absurd rfl hus
      | cons a t => rfl
    have hnone : (chainParentIdx "" us).lookup (us.getLastD "") = none := by
      rw [lookup_eq_none_iff_keys, chainParentIdx_keys, hcons]
      intro hcontra
      rcases List.mem_cons.mp hcontra with h | h
      · exact hLe h
      · exact hLdrop h
    rw [hnone]
    simp [List.lookup_cons]
  simp only [remove_uuid, hbyu]
  rw [if_neg (by simpa [collMeta] using hLe)]
  simp only [collMeta] at hbyp ⊢
  rw [hbyp]
  dsimp only
  rw [if_pos (by simp [List.lookup_cons])]
  have hsib : dictErase [(x, collMeta x (us.getLastD ""))] x = [] := by
    simp [dictErase]
  simp only [collMeta] at hsib
  rw [hsib]
  simp only [List.isEmpty_nil, if_true]
  have hbyu' : dictErase (chainIndex (us ++ [x])).metadata_by_uuid x
      = chainRecords "" us := by
    show dictErase (chainRecords "" (us ++ [x])) x = _
    rw [chainRecords_append]
    show List.filter _ (chainRecords "" us ++ [(x, collMeta x (us.getLastD ""))])
      = _
    rw [List.filter_append]
    have h1 : dictErase (chainRecords "" us) x = chainRecords "" us := by
      apply dictErase_of_not_mem_keys
      rw [chainRecords_keys]
      exact hx
    have h2 : dictErase [(x, collMeta x (us.getLastD ""))] x = [] := by
      simp [dictErase]
    show dictErase (chainRecords "" us) x
        ++ dictErase [(x, collMeta x (us.getLastD ""))] x = _
    rw [h1, h2, List.append_nil]
  have hbyp' : dictErase (chainIndex (us ++ [x])).metadata_by_parent
        (us.getLastD "")
      = chainParentIdx "" us := by
    show dictErase (chainParentIdx "" (us ++ [x])) (us.getLastD "") = _
    rw [chainParentIdx_append]
    show List.filter _
        (chainParentIdx "" us
          ++ [(us.getLastD "", [(x, collMeta x (us.getLastD ""))])]) = _
    rw [List.filter_append]
    have hcons : ("" :: us).dropLast = "" :: us.dropLast := by
      cases us with
      | nil => exact absurd rfl hus
      | cons a t => rfl
    have h1 : dictErase (chainParentIdx "" us) (us.getLastD "")
        = chainParentIdx "" us := by
      apply dictErase_of_not_mem_keys
      rw [chainParentIdx_keys, hcons]
      intro hcontra
      rcases List.mem_cons.mp hcontra with h | h
      · exact hLe h
      · exact hLdrop h
    have h2 : dictErase
        [(us.getLastD "", [(x, collMeta x (us.getLastD ""))])]
        (us.getLastD "") = [] := by
      simp [dictErase]
    show dictErase (chainParentIdx "" us) (us.getLastD "")
        ++ dictErase [(us.getLastD "", [(x, collMeta x (us.getLastD ""))])]
            (us.getLastD "") = _
    rw [h1, h2, List.append_nil]
  simp only [collMeta] at hbyu' hbyp'
  rw [hbyu', hbyp']
  rfl

theorem remove_uuid_chain_single (x : String) :
    remove_uuid (chainIndex [x]) x = some (chainFinal x) := by
  simp [remove_uuid, chainIndex, chainRecords, chainParentIdx, chainFinal,
    collMeta, dictErase, List.lookup_cons]

theorem emptyScan_chainFinal (u : String) : emptyScan (chainFinal u) = [] := rfl

theorem emptydirLoop_chain :
    ∀ (n : Nat) (us : List String), us.length = n → us ≠ [] →
      ("" :: us).Nodup →
      ∀ (fuel acc_iters_fuel : Nat) (acc : List String),
        us.length + 1 ≤ fuel →
        emptydirLoop fuel (chainIndex us) acc acc_iters_fuel
          = some (chainFinal (us.headD ""), acc ++ us.reverse,
              acc_iters_fuel + us.length + 1) := by
  intro n
  induction n with
  | zero =>
    intro us hlen hne
    exact absurd (List.length_eq_zero.mp hlen) hne
  | succ k ih =>
    intro us hlen hne hnd fuel iters acc hfuel
    obtain ⟨vs, x, rfl⟩ : ∃ vs x, us = vs ++ [x] :=
      ⟨us.dropLast, us.getLast hne, (List.dropLast_append_getLast hne).symm⟩
    rw [List.nodup_cons] at hnd
    have hro : "" ∉ vs := fun h => hnd.1 (List.mem_append_left _ h)
    have hxe : x ≠ "" := fun h =>
      hnd.1 (by rw [← h]; exact List.mem_append_right _ (List.mem_singleton.mpr rfl))
    have hnd2 := hnd.2
    rw [List.nodup_append] at hnd2
    have hvsnd : vs.Nodup := hnd2.1
    have hxvs : x ∉ vs := fun h => hnd2.2.2 h (List.mem_singleton.mpr rfl)
    obtain ⟨f, rfl⟩ : ∃ f, fuel = f + 1 := ⟨fuel - 1, by omega⟩
    simp only [emptydirLoop]
    rw [emptyScan_chainIndex vs x hxvs hxe]
    rw [if_neg (by simp)]
    cases hvs : vs with
    | nil =>
      subst hvs
      have hrm : removeMany (chainIndex ([] ++ [x])) [x]
          = some (chainFinal x) := by
        simp only [removeMany, List.nil_append, remove_uuid_chain_single x]
      rw [hrm]
      dsimp only
      obtain ⟨g, rfl⟩ : ∃ g, f = g + 1 := ⟨f - 1, by simp at hfuel; omega⟩
      simp only [emptydirLoop, emptyScan_chainFinal]
      rw [if_pos (by simp)]
      simp
    | cons v vt =>
      have hvsne : vs ≠ [] := by rw [hvs]; simp
      rw [← hvs]
      have hrm : removeMany (chainIndex (vs ++ [x])) [x]
          = some (chainIndex vs) := by
        simp only [removeMany,
          remove_uuid_chain_snoc vs x hvsne hvsnd hxvs hxe hro]
      rw [hrm]
      dsimp only
      have hlen' : vs.length = k := by
        simp at hlen; omega
      have hrec := ih vs hlen' hvsne
        (by rw [List.nodup_cons]; exact ⟨hro, hvsnd⟩)
        f (iters + 1) (acc ++ [x]) (by simp at hfuel ⊢; omega)
      rw [hrec]
      simp only [Option.some.injEq, Prod.mk.injEq]
      refine ⟨?_, ?_, ?_⟩
      · rw [hvs]; rfl
      · rw [List.reverse_append]
        simp [List.append_assoc]
      · simp; omega

theorem remove_uuid_lookup_byuuid {idx idx' : Index} {u : String}
    (h : remove_uuid idx u = some idx') :
    ∀ v, idx'.metadata_by_uuid.lookup v
      = if v == u then none else idx.metadata_by_uuid.lookup v := by
  unfold remove_uuid at h
  cases hb : idx.metadata_by_uuid.lookup u with
  | none => rw [hb] at h; simp at h
  | some m =>
    rw [hb] at h
    dsimp only at h
    by_cases hp : m.parent = ""
    · rw [if_pos hp] at h
      cases h
      intro v
      exact lookup_dictErase _ u v
    · rw [if_neg hp] at h
      cases hsib : idx.metadata_by_parent.lookup m.parent with
      | none => rw [hsib] at h; simp at h
      | some sib =>
        rw [hsib] at h
        dsimp only at h
        by_cases hs : (sib.lookup u).isSome = true
        · rw [if_pos hs] at h
          cases h
          intro v
          exact lookup_dictErase _ u v
        · rw [if_neg hs] at h
          simp at h

theorem removeMany_lookup_none :
    ∀ (us : List String) (idx idx' : Index),
      removeMany idx us = some idx' →
      ∀ v, (v ∈ us ∨ idx.metadata_by_uuid.lookup v = none) →
        idx'.metadata_by_uuid.lookup v = none := by
  intro us
  induction us with
  | nil =>
    intro idx idx' h v hv
    cases h
    rcases hv with h' | h'
    · simp at h'
    · exact h'
  | cons u t ih =>
    intro idx idx' h v hv
    simp only [removeMany] at h
    cases hr : remove_uuid idx u with
    | none => rw [hr] at h; simp at h
    | some idx1 =>
      rw [hr] at h
      dsimp only at h
      have hlk := remove_uuid_lookup_byuuid hr
      rcases hv with h' | h'
      · rcases List.mem_cons.mp h' with h'' | h''
        · subst h''
          refine ih idx1 idx' h v (Or.inr ?_)
          rw [hlk v]
          simp
        · exact ih idx1 idx' h v (Or.inl h'')
      · refine ih idx1 idx' h v (Or.inr ?_)
        rw [hlk v]
        by_cases hv' : v = u
        · simp [hv']
        · simp [beq_false_of_ne hv', h']

theorem emptydirLoop_dels_removed :
    ∀ (fuel : Nat) (idx : Index) (acc : List String) (iters : Nat)
      (idx' : Index) (dels : List String) (iters' : Nat),
      emptydirLoop fuel idx acc iters = some (idx', dels, iters') →
      (∀ v ∈ acc, idx.metadata_by_uuid.lookup v = none) →
      ∀ v ∈ dels, idx'.metadata_by_uuid.lookup v = none := by
  intro fuel
  induction fuel with
  | zero =>
    intro idx acc iters idx' dels iters' h
    simp [emptydirLoop] at h
  | succ f ih =>
    intro idx acc iters idx' dels iters' h hacc
    simp only [emptydirLoop] at h
    by_cases he : (emptyScan idx).isEmpty = true
    · rw [if_pos he] at h
      simp only [Option.some.injEq, Prod.mk.injEq] at h
      obtain ⟨h1, h2, _⟩ := h
      subst h1
      subst h2
      exact hacc
    · rw [if_neg he] at h
      cases hrm : removeMany idx (emptyScan idx) with
      | none => rw [hrm] at h; simp at h
      | some idx1 =>
        rw [hrm] at h
        dsimp only at h
        refine ih idx1 (acc ++ emptyScan idx) (iters + 1) idx' dels iters' h ?_
        intro v hv
        rcases List.mem_append.mp hv with h' | h'
        · exact removeMany_lookup_none _ _ _ hrm v (Or.inr (hacc v h'))
        · exact removeMany_lookup_none _ _ _ hrm v (Or.inl h')

theorem emptydirLoop_final_scan :
    ∀ (fuel : Nat) (idx : Index) (acc : List String) (iters : Nat)
      (idx' : Index) (dels : List String) (iters' : Nat),
      emptydirLoop fuel idx acc iters = some (idx', dels, iters') →
      emptyScan idx' = [] := by
  intro fuel
  induction fuel with
  | zero =>
    intro idx acc iters idx' dels iters' h
    simp [emptydirLoop] at h
  | succ f ih =>
    intro idx acc iters idx' dels iters' h
    simp only [emptydirLoop] at h
    by_cases he : (emptyScan idx).isEmpty = true
    · rw [if_pos he] at h
      simp only [Option.some.injEq, Prod.mk.injEq] at h
      obtain ⟨h1, _, _⟩ := h
      subst h1
      exact List.isEmpty_iff.mp he
    · rw [if_neg he] at h
      cases hrm : removeMany idx (emptyScan idx) with
      | none => rw [hrm] at h; simp at h
      | some idx1 =>
        rw [hrm] at h
        dsimp only at h
        exact ih idx1 (acc ++ emptyScan idx) (iters + 1) idx' dels iters' h

/-- C6.  Empty-collection fixpoint: the pass scans without mutating
(removals happen only after each full scan, by construction of
`emptydirLoop`), repeats until a scan finds no empty collection, and
on a chain of N nested collections (each containing only the next,
innermost empty) it removes exactly the N collections — innermost
first — using exactly N removing iterations (the N+1-th scan finds
none).  Running the pass again on the already-cleaned index removes
nothing and stops after a single scan: the pass is idempotent, on the
chain and on every index the pass terminates on. -/
theorem cleanup_emptydir_fixpoint :
    (∀ (us : List String), us ≠ [] → ("" :: us).Nodup →
        cleanup_emptydir_core (chainIndex us)
          = some (chainFinal (us.headD ""), us.reverse, us.length + 1)
        ∧ cleanup_emptydir_core (chainFinal (us.headD ""))
          = some (chainFinal (us.headD ""), [], 1))
  ∧ (∀ (idx idx' : Index) (dels : List String) (iters : Nat),
        cleanup_emptydir_core idx = some (idx', dels, iters) →
        cleanup_emptydir_core idx' = some (idx', [], 1)) := by
  constructor
  · intro us hne hnd
    constructor
    · show emptydirLoop ((chainIndex us).metadata_by_uuid.length + 1)
        (chainIndex us) [] 0 = _
      have hlen : (chainIndex us).metadata_by_uuid.length = us.length := by
        show (chainRecords "" us).length = us.length
        have hmap : ((chainRecords "" us).map Prod.fst).length
            = (chainRecords "" us).length := List.length_map _ _
        rw [← hmap, chainRecords_keys]
      rw [hlen]
      have := emptydirLoop_chain us.length us rfl hne hnd
        (us.length + 1) 0 [] (by omega)
      simpa using this
    · rfl
  · intro idx idx' dels iters h
    have hscan := emptydirLoop_final_scan _ _ _ _ _ _ _ h
    show emptydirLoop (idx'.metadata_by_uuid.length + 1) idx' [] 0
      = some (idx', [], 1)
    simp only [emptydirLoop, hscan]
    rfl

theorem cleanup_emptydir_fixpoint_witness :
    cleanup_emptydir_core (chainIndex ["k1", "k2", "k3"])
      = some (chainFinal "k1", ["k3", "k2", "k1"], 4)
    ∧ cleanup_emptydir_core (chainFinal "k1")
      = some (chainFinal "k1", [], 1) :=
  cleanup_emptydir_fixpoint.1 ["k1", "k2", "k3"] (by decide) (by decide)

/-- The uuid occurs in none of the by-parent sets. -/
def absentFromParents (idx : Index) (u : String) : Prop :=
  ∀ e ∈ idx.metadata_by_parent, e.2.lookup u = none

instance (idx : Index) (u : String) : Decidable (absentFromParents idx u) := by
  unfold absentFromParents; infer_instance

/-- Per-uuid well-formedness of the by-parent index, as `load`
establishes it: wherever the uuid occurs in a by-parent set, that set
is the one keyed by the uuid's own record's parent. -/
def parentKeyed (idx : Index) (u : String) : Prop :=
  ∀ e ∈ idx.metadata_by_parent, (e.2.lookup u).isSome = true →
    (idx.metadata_by_uuid.lookup u).map Meta.parent = some e.1

instance (idx : Index) (u : String) : Decidable (parentKeyed idx u) := by
  unfold parentKeyed; infer_instance

theorem absent_parentKeyed {idx : Index} {u : String}
    (ha : absentFromParents idx u) : parentKeyed idx u := by
  intro e he hs
  rw [ha e he] at hs
  simp at hs

theorem mem_dictErase_strong {κ α : Type} [BEq κ] [LawfulBEq κ]
    {d : List (κ × α)} {k : κ} {e : κ × α}
    (h : e ∈ dictErase d k) : e ∈ d ∧ e.1 ≠ k := by
  have h2 := List.mem_filter.mp h
  refine ⟨h2.1, ?_⟩
  intro heq
  have hc := h2.2
  rw [heq] at hc
  simp at hc

theorem mem_dictInsert_strong {κ α : Type} [BEq κ] [LawfulBEq κ]
    {d : List (κ × α)} {k : κ} {v : α} {e : κ × α}
    (h : e ∈ dictInsert d k v) : e = (k, v) ∨ (e ∈ d ∧ e.1 ≠ k) := by
  unfold dictInsert at h
  by_cases hs : (d.lookup k).isSome
  · simp only [hs, if_true, List.mem_map] at h
    obtain ⟨p, hp, hpe⟩ := h
    by_cases hpk : (p.1 == k) = true
    · simp only [hpk, if_true] at hpe
      exact Or.inl hpe.symm
    · rw [if_neg hpk] at hpe
      refine Or.inr ⟨hpe ▸ hp, ?_⟩
      intro heq
      apply hpk
      rw [beq_iff_eq, hpe]
      exact heq
  · simp only [hs, Bool.false_eq_true, if_false, List.mem_append,
      List.mem_singleton] at h
    rcases h with h1 | h2
    · refine Or.inr ⟨h1, ?_⟩
      intro heq
      have hnone : d.lookup k = none := by
        cases hd : d.lookup k with
        | none => rfl
        | some w => rw [hd] at hs; simp at hs
      rw [lookup_eq_none_iff_keys] at hnone
      exact hnone (heq ▸ List.mem_map_of_mem Prod.fst h1)
    · exact Or.inl h2

/-- Case analysis of a successful `remove_uuid`: the looked-up record,
the erased by-uuid dict, the untouched by-name and by-name-and-parent
dicts, and the two by-parent outcomes (root: untouched; non-root:
sibling erased, entry dropped when empty). -/
theorem remove_uuid_cases {idx idx' : Index} {w : String}
    (h : remove_uuid idx w = some idx') :
    ∃ m, idx.metadata_by_uuid.lookup w = some m
      ∧ idx'.metadata_by_uuid = dictErase idx.metadata_by_uuid w
      ∧ idx'.metadata_by_name = idx.metadata_by_name
      ∧ idx'.metadata_by_name_and_parent = idx.metadata_by_name_and_parent
      ∧ ((m.parent = "" ∧ idx'.metadata_by_parent = idx.metadata_by_parent)
        ∨ (m.parent ≠ "" ∧ ∃ sib,
            idx.metadata_by_parent.lookup m.parent = some sib
            ∧ (sib.lookup w).isSome = true
            ∧ idx'.metadata_by_parent =
                (if (dictErase sib w).isEmpty then
                  dictErase idx.metadata_by_parent m.parent
                else
                  dictInsert idx.metadata_by_parent m.parent
                    (dictErase sib w)))) := by
  unfold remove_uuid at h
  cases hb : idx.metadata_by_uuid.lookup w with
  | none => rw [hb] at h; simp at h
  | some m =>
    rw [hb] at h
    dsimp only at h
    by_cases hp : m.parent = ""
    · rw [if_pos hp] at h
      cases h
      exact ⟨m, rfl, rfl, rfl, rfl, Or.inl ⟨hp, rfl⟩⟩
    · rw [if_neg hp] at h
      cases hsib : idx.metadata_by_parent.lookup m.parent with
      | none => rw [hsib] at h; simp at h
      | some sib =>
        rw [hsib] at h
        dsimp only at h
        by_cases hws : (sib.lookup w).isSome = true
        · rw [if_pos hws] at h
          cases h
          exact ⟨m, rfl, rfl, rfl, rfl, Or.inr ⟨hp, sib, hsib, hws, rfl⟩⟩
        · rw [if_neg hws] at h
          simp at h

theorem remove_uuid_absent_pres {idx idx' : Index} {w u : String}
    (h : remove_uuid idx w = some idx')
    (ha : absentFromParents idx u) : absentFromParents idx' u := by
  obtain ⟨m, hm, hbyu, hbn, hbnp, hcase⟩ := remove_uuid_cases h
  intro e he
  rcases hcase with ⟨hp, hbp⟩ | ⟨hp, sib, hsib, hws, hbp⟩
  · rw [hbp] at he
    exact ha e he
  · rw [hbp] at he
    by_cases hemp : (dictErase sib w).isEmpty = true
    · rw [if_pos hemp] at he
      exact ha e (mem_dictErase_strong he).1
    · rw [if_neg hemp] at he
      rcases mem_dictInsert he with he' | he'
      · rw [he']
        show (dictErase sib w).lookup u = none
        rw [lookup_dictErase]
        have hsn := ha (m.parent, sib) (lookup_eq_some_mem hsib)
        cases huw : (u == w) <;> simp [hsn]
      · exact ha e he'

theorem remove_uuid_parentKeyed_pres {idx idx' : Index} {w u : String}
    (h : remove_uuid idx w = some idx') (hne : w ≠ u)
    (hk : parentKeyed idx u) : parentKeyed idx' u := by
  obtain ⟨m, hm, hbyu, _, _, hcase⟩ := remove_uuid_cases h
  have hlk : idx'.metadata_by_uuid.lookup u = idx.metadata_by_uuid.lookup u := by
    rw [hbyu, lookup_dictErase]
    simp [beq_false_of_ne (Ne.symm hne)]
  intro e he hsome
  rw [hlk]
  rcases hcase with ⟨hp, hbp⟩ | ⟨hp, sib, hsib, hws, hbp⟩
  · rw [hbp] at he
    exact hk e he hsome
  · rw [hbp] at he
    by_cases hemp : (dictErase sib w).isEmpty = true
    · rw [if_pos hemp] at he
      exact hk e (mem_dictErase_strong he).1 hsome
    · rw [if_neg hemp] at he
      rcases mem_dictInsert_strong he with he' | he'
      · subst he'
        rw [show ((m.parent, dictErase sib w) : String × List (String × Meta)).2
            = dictErase sib w from rfl, lookup_dictErase,
          beq_false_of_ne (Ne.symm hne)] at hsome
        simp only [Bool.false_eq_true, if_false] at hsome
        exact hk (m.parent, sib) (lookup_eq_some_mem hsib) hsome
      · exact hk e he'.1 hsome

theorem remove_uuid_absent_establish {idx idx' : Index} {u : String} {m : Meta}
    (h : remove_uuid idx u = some idx')
    (hm : idx.metadata_by_uuid.lookup u = some m) (hp : m.parent ≠ "")
    (hk : parentKeyed idx u) : absentFromParents idx' u := by
  obtain ⟨m', hm', hbyu, _, _, hcase⟩ := remove_uuid_cases h
  rw [hm] at hm'
  injection hm' with hmm
  subst hmm
  have hother : ∀ e', e' ∈ idx.metadata_by_parent → e'.1 ≠ m.parent →
      e'.2.lookup u = none := by
    intro e' he' hne'
    cases hcase' : e'.2.lookup u with
    | none => rfl
    | some v =>
      have hs : (e'.2.lookup u).isSome = true := by rw [hcase']; rfl
      have hkk := hk e' he' hs
      rw [hm] at hkk
      injection hkk with hkk'
      exact absurd hkk'.symm hne'
  rcases hcase with ⟨hp', _⟩ | ⟨hp', sib, hsib, hws, hbp⟩
  · exact absurd hp' hp
  · intro e he
    rw [hbp] at he
    by_cases hemp : (dictErase sib u).isEmpty = true
    · rw [if_pos hemp] at he
      obtain ⟨hin, hne'⟩ := mem_dictErase_strong he
      exact hother e hin hne'
    · rw [if_neg hemp] at he
      rcases mem_dictInsert_strong he with he' | he'
      · subst he'
        show (dictErase sib u).lookup u = none
        rw [lookup_dictErase]
        simp
      · exact hother e he'.1 he'.2

theorem removeMany_lookup_pres :
    ∀ (us : List String) (idx idx' : Index),
      removeMany idx us = some idx' →
      ∀ v, idx'.metadata_by_uuid.lookup v = none
        ∨ idx'.metadata_by_uuid.lookup v = idx.metadata_by_uuid.lookup v := by
  intro us
  induction us with
  | nil =>
    intro idx idx' h v
    cases h
    exact Or.inr rfl
  | cons w t ih =>
    intro idx idx' h v
    simp only [removeMany] at h
    cases hr : remove_uuid idx w with
    | none => rw [hr] at h; simp at h
    | some idx1 =>
      rw [hr] at h
      dsimp only at h
      rcases ih idx1 idx' h v with h1 | h1
      · exact Or.inl h1
      · rw [remove_uuid_lookup_byuuid hr v] at h1
        by_cases hv : v = w
        · rw [if_pos (beq_iff_eq.mpr hv)] at h1
          exact Or.inl h1
        · rw [if_neg (by simp [beq_false_of_ne hv])] at h1
          exact Or.inr h1

theorem removeMany_absent_pres :
    ∀ (us : List String) (idx idx' : Index) (u : String),
      removeMany idx us = some idx' →
      absentFromParents idx u → absentFromParents idx' u := by
  intro us
  induction us with
  | nil =>
    intro idx idx' u h ha
    cases h
    exact ha
  | cons w t ih =>
    intro idx idx' u h ha
    simp only [removeMany] at h
    cases hr : remove_uuid idx w with
    | none => rw [hr] at h; simp at h
    | some idx1 =>
      rw [hr] at h
      dsimp only at h
      exact ih idx1 idx' u h (remove_uuid_absent_pres hr ha)

theorem removeMany_parentKeyed_pres :
    ∀ (us : List String) (idx idx' : Index) (u : String),
      removeMany idx us = some idx' →
      u ∉ us → parentKeyed idx u → parentKeyed idx' u := by
  intro us
  induction us with
  | nil =>
    intro idx idx' u h _ hk
    cases h
    exact hk
  | cons w t ih =>
    intro idx idx' u h hu hk
    simp only [removeMany] at h
    cases hr : remove_uuid idx w with
    | none => rw [hr] at h; simp at h
    | some idx1 =>
      rw [hr] at h
      dsimp only at h
      have hwu : w ≠ u := fun hh => hu (hh ▸ List.mem_cons_self _ _)
      have hut : u ∉ t := fun hh => hu (List.mem_cons_of_mem _ hh)
      exact ih idx1 idx' u h hut (remove_uuid_parentKeyed_pres hr hwu hk)

theorem removeMany_absent_establish :
    ∀ (us : List String) (idx idx' : Index) (u : String),
      removeMany idx us = some idx' →
      u ∈ us →
      (∀ m, idx.metadata_by_uuid.lookup u = some m → m.parent ≠ "") →
      parentKeyed idx u →
      absentFromParents idx' u := by
  intro us
  induction us with
  | nil =>
    intro idx idx' u _ hu
    simp at hu
  | cons w t ih =>
    intro idx idx' u h hu hnonroot hk
    simp only [removeMany] at h
    cases hr : remove_uuid idx w with
    | none => rw [hr] at h; simp at h
    | some idx1 =>
      rw [hr] at h
      dsimp only at h
      by_cases hw : w = u
      · subst hw
        obtain ⟨m, hm, _⟩ := remove_uuid_cases hr
        have habs := remove_uuid_absent_establish hr hm (hnonroot m hm) hk
        exact removeMany_absent_pres t idx1 idx' w h habs
      · have hut : u ∈ t := by
          rcases List.mem_cons.mp hu with h' | h'
          · exact absurd h'.symm hw
          · exact h'
        have hlk : idx1.metadata_by_uuid.lookup u
            = idx.metadata_by_uuid.lookup u := by
          rw [remove_uuid_lookup_byuuid hr u]
          rw [if_neg (by simp [beq_false_of_ne (fun hh : u = w => hw hh.symm)])]
        refine ih idx1 idx' u h hut ?_ ?_
        · intro m hm1
          rw [hlk] at hm1
          exact hnonroot m hm1
        · exact remove_uuid_parentKeyed_pres hr hw hk

theorem emptydirLoop_parent_absence :
    ∀ (fuel : Nat) (idx : Index) (acc : List String) (iters : Nat)
      (idx' : Index) (dels : List String) (iters' : Nat) (u : String),
      emptydirLoop fuel idx acc iters = some (idx', dels, iters') →
      (∀ m, idx.metadata_by_uuid.lookup u = some m → m.parent ≠ "") →
      parentKeyed idx u →
      (u ∈ acc → absentFromParents idx u) →
      u ∈ dels → absentFromParents idx' u := by
  intro fuel
  induction fuel with
  | zero =>
    intro idx acc iters idx' dels iters' u h
    simp [emptydirLoop] at h
  | succ f ih =>
    intro idx acc iters idx' dels iters' u h hnonroot hk hacc hmem
    simp only [emptydirLoop] at h
    by_cases he : (emptyScan idx).isEmpty = true
    · rw [if_pos he] at h
      simp only [Option.some.injEq, Prod.mk.injEq] at h
      obtain ⟨h1, h2, _⟩ := h
      subst h1
      subst h2
      exact hacc hmem
    · rw [if_neg he] at h
      cases hrm : removeMany idx (emptyScan idx) with
      | none => rw [hrm] at h; simp at h
      | some idx1 =>
        rw [hrm] at h
        dsimp only at h
        have hnonroot1 : ∀ m, idx1.metadata_by_uuid.lookup u = some m →
            m.parent ≠ "" := by
          intro m hm1
          rcases removeMany_lookup_pres _ _ _ hrm u with h1 | h1
          · rw [h1] at hm1; simp at hm1
          · rw [h1] at hm1; exact hnonroot m hm1
        by_cases hu : u ∈ emptyScan idx
        · have habs : absentFromParents idx1 u :=
            removeMany_absent_establish _ _ _ _ hrm hu hnonroot hk
          exact ih idx1 (acc ++ emptyScan idx) (iters + 1) idx' dels iters' u
            h hnonroot1 (absent_parentKeyed habs) (fun _ => habs) hmem
        · refine ih idx1 (acc ++ emptyScan idx) (iters + 1) idx' dels iters' u
            h hnonroot1 (removeMany_parentKeyed_pres _ _ _ _ hrm hu hk)
            ?_ hmem
          intro hacc'
          rcases List.mem_append.mp hacc' with h' | h'
          · exact removeMany_absent_pres _ _ _ _ hrm (hacc h')
          · exact absurd h' hu

/-- C10 counterexample.  Declining the confirmation after the pass
detected the single empty root collection "k0": the pass returns
`False` with no storage removal and the in-memory by-id index has
indeed lost the entry, but the by-parent index has not — "k0" is still
listed in the by-parent set under the empty key, because `remove_uuid`
skips the by-parent update for records whose parent is the empty
string.  So "the in-memory by-id and by-parent indices have already
lost those entries" is false as stated. -/
theorem emptydir_decline_root_stays_in_by_parent :
    cleanup_emptydir (chainIndex ["k0"]) false false
      = some ⟨false, chainFinal "k0", ["k0"], []⟩
  ∧ (chainFinal "k0").metadata_by_uuid.lookup "k0" = none
  ∧ (chainFinal "k0").metadata_by_parent.lookup ""
      = some [("k0", collMeta "k0" "")] :=
  ⟨rfl, rfl, rfl⟩

/-- C10 (amended).  Every empty collection detected by
`cleanup_emptydir` is removed from the in-memory index (via
`remove_uuid`) during the fixpoint loop, before the confirmation
prompt: when the operator declines, the pass still returns `False` and
issues no storage removal, yet every removed uuid is already gone from
the in-memory by-id index — and every removed uuid whose record has a
non-empty parent (given the index keys its by-parent occurrences by
the record's parent, as load does) is also gone from all by-parent
sets, while a removed root collection's id remains in the empty-key
by-parent set.  Only the storage-level removal (and the `True` return)
is gated by the confirmation. -/
theorem emptydir_decline_loses_index_entries :
    ∀ (idx idx' : Index) (dels : List String) (iters : Nat) (dryrun : Bool),
      cleanup_emptydir_core idx = some (idx', dels, iters) →
      dels ≠ [] →
      cleanup_emptydir idx false dryrun = some ⟨false, idx', dels, []⟩
      ∧ (∀ u ∈ dels, idx'.metadata_by_uuid.lookup u = none)
      ∧ (∀ u ∈ dels, ∀ m, idx.metadata_by_uuid.lookup u = some m →
          m.parent ≠ "" → parentKeyed idx u → absentFromParents idx' u)
      ∧ cleanup_emptydir idx true false = some ⟨true, idx', dels, dels⟩ := by
  intro idx idx' dels iters dryrun h hne
  refine ⟨?_, ?_, ?_, ?_⟩
  · unfold cleanup_emptydir
    rw [h]
    dsimp only
    rw [if_neg (by simpa using hne)]
    rfl
  · exact fun u hu => emptydirLoop_dels_removed _ _ _ _ _ _ _ h
      (by intro v hv; simp at hv) u hu
  · intro u hu m hm hp hk
    refine emptydirLoop_parent_absence _ _ _ _ _ _ _ u h ?_ hk
      (by intro hv; simp at hv) hu
    intro m' hm'
    rw [hm] at hm'
    injection hm' with hmm
    rw [← hmm]
    exact hp
  · unfold cleanup_emptydir
    rw [h]
    dsimp only
    rw [if_neg (by simpa using hne)]
    rfl

theorem emptydir_decline_loses_index_entries_witness :
    cleanup_emptydir (chainIndex ["r", "c"]) false false
      = some ⟨false, chainFinal "r", ["c", "r"], []⟩
    ∧ (∀ u ∈ ["c", "r"], (chainFinal "r").metadata_by_uuid.lookup u = none)
    ∧ absentFromParents (chainFinal "r") "c"
    ∧ cleanup_emptydir (chainIndex ["r", "c"]) true false
      = some ⟨true, chainFinal "r", ["c", "r"], ["c", "r"]⟩ :=
  ⟨(emptydir_decline_loses_index_entries (chainIndex ["r", "c"])
      (chainFinal "r") ["c", "r"] 3 false (by rfl) (by decide)).1,
   (emptydir_decline_loses_index_entries (chainIndex ["r", "c"])
      (chainFinal "r") ["c", "r"] 3 false (by rfl) (by decide)).2.1,
   (emptydir_decline_loses_index_entries (chainIndex ["r", "c"])
      (chainFinal "r") ["c", "r"] 3 false (by rfl) (by decide)).2.2.1
     "c" (by decide) (collMeta "c" "r") (by rfl) (by decide) (by decide),
   (emptydir_decline_loses_index_entries (chainIndex ["r", "c"])
      (chainFinal "r") ["c", "r"] 3 false (by rfl) (by decide)).2.2.2⟩
